import Mathlib

/-!
# Bitwig drum-machine preset exporter: embedding of `main.go`

A shallow embedding of the text-extraction and classification logic of the
exporter, together with the destination layout computed for every sample.

* Go strings are modelled as lists of code points (`Str`); all patterns and
  separators used by the program are ASCII, so byte-wise and rune-wise
  processing of well-formed UTF-8 text agree.
* The library functions the program calls (`strings`, `path/filepath`,
  `regexp`) are modelled after their documented behaviour on Unix paths.
* The operating system is a parameter (`OS`); copying is threaded through an
  explicit state.
-/

namespace BitwigExporter

/-- A Go string as the list of its code points. -/
abbrev Str := List Char

/-- A Go `error` value, represented by its message. -/
abbrev Err := Str

/-! ## Package `strings` -/

/-- Go `strings.HasPrefix`. -/
def strings.HasPrefix (s pre : Str) : Bool := pre.isPrefixOf s

/-- Go `strings.HasSuffix`. -/
def strings.HasSuffix (s suf : Str) : Bool := suf.reverse.isPrefixOf s.reverse

/-- Go `strings.Contains`: does `sub` occur in `s`. -/
def strings.Contains : Str → Str → Bool
  | [], sub => sub.isEmpty
  | c :: s, sub => sub.isPrefixOf (c :: s) || strings.Contains s sub

/-- Scanning loop of `strings.Replace` for a non-empty `old`: `n` replacements are
still allowed and the next `skip` characters belong to an occurrence that has
just been replaced. -/
def strings.replaceGo (old new : Str) : Nat → Nat → Str → Str
  | _, _, [] => []
  | n, skip + 1, _ :: s => strings.replaceGo old new n skip s
  | 0, 0, c :: s => c :: s
  | n + 1, 0, c :: s =>
    if old.isPrefixOf (c :: s) then new ++ strings.replaceGo old new n (old.length - 1) s
    else c :: strings.replaceGo old new (n + 1) 0 s

/-- Go `strings.Replace(s, old, new, n)` for a non-empty `old` and `n ≥ 0`: the first
`n` non-overlapping occurrences of `old`, from the left, are replaced by `new`. -/
def strings.Replace (s old new : Str) (n : Nat) : Str := strings.replaceGo old new n 0 s

/-- Go `strings.TrimPrefix`. -/
def strings.TrimPrefix (s pre : Str) : Str :=
  if strings.HasPrefix s pre then s.drop pre.length else s

/-- Go `strings.TrimSuffix`. -/
def strings.TrimSuffix (s suf : Str) : Str :=
  if strings.HasSuffix s suf then s.take (s.length - suf.length) else s

/-- Go `strings.Split(s, sep)` for a one-character separator: the pieces of `s`
between the separators; never the empty list. -/
def strings.Split : Str → Char → List Str
  | [], _ => [[]]
  | c :: s, sep =>
    if c = sep then [] :: strings.Split s sep
    else
      match strings.Split s sep with
      | [] => [[c]]
      | piece :: rest => (c :: piece) :: rest

/-! ## Package `regexp`

The three patterns of the program are sequences of single-character tests and
greedy repetitions of a character class.  Matching follows the leftmost-first
rule of Go: the match starts as early as possible and, among the matches that
start there, it is the one a backtracking search finds first (a greedy
repetition tries its longest run first). -/

/-- One element of a pattern. -/
inductive Item where
  /-- A single character satisfying a test: a literal, a class or `.`. -/
  | one (p : Char → Bool)
  /-- Greedy repetition `[class]{lo,hi}`; `hi = none` is unbounded (`+` is `{1,}`). -/
  | rep (p : Char → Bool) (lo : Nat) (hi : Option Nat)

/-- A compiled pattern: its elements and, for each capture group, the index of
its first element and the number of elements it spans. -/
structure Regexp where
  items : List Item
  groups : List (Nat × Nat)

/-- Length of the longest run of characters satisfying `p` at the start of `s`,
capped at the upper bound of the repetition. -/
def maxRun (p : Char → Bool) (hi : Option Nat) (s : Str) : Nat :=
  match hi with
  | none => (s.takeWhile p).length
  | some h => min h (s.takeWhile p).length

/-- First success of `f k`, `f (k-1)`, ..., `f lo`, in that order. -/
def firstDown {α : Type} (f : Nat → Option α) (lo : Nat) : Nat → Option α
  | 0 => if lo = 0 then f 0 else none
  | k + 1 =>
    if k + 1 < lo then none
    else
      match f (k + 1) with
      | some r => some r
      | none => firstDown f lo k

/-- Backtracking match of a pattern at the start of `s`: the text matched by each
element and the unmatched rest of `s`. -/
def matchItems : List Item → Str → Option (List Str × Str)
  | [], s => some ([], s)
  | Item.one _ :: _, [] => none
  | Item.one p :: items, c :: s =>
    if p c then (matchItems items s).map (fun r => ([c] :: r.1, r.2)) else none
  | Item.rep p lo hi :: items, s =>
    firstDown (fun k => (matchItems items (s.drop k)).map (fun r => (s.take k :: r.1, r.2)))
      lo (maxRun p hi s)

/-- Leftmost match: the element texts of the first match that a search from
left to right finds. -/
def findFirst (items : List Item) : Str → Option (List Str)
  | [] => (matchItems items []).map (fun r => r.1)
  | c :: s =>
    match matchItems items (c :: s) with
    | some r => some r.1
    | none => findFirst items s

/-- Go `(*Regexp).FindStringSubmatch`: `none` is the `nil` slice; otherwise the whole
match followed by the text of each capture group. -/
def Regexp.FindStringSubmatch (re : Regexp) (s : Str) : Option (List Str) :=
  (findFirst re.items s).map
    (fun segs => segs.flatten :: re.groups.map (fun g => ((segs.drop g.1).take g.2).flatten))

/-- Successive non-overlapping leftmost matches of a pattern whose matches are
never empty; the next `skip` characters belong to the previous match. -/
def findAllFrom (items : List Item) : Nat → Str → List Str
  | _, [] => []
  | skip + 1, _ :: s => findAllFrom items skip s
  | 0, c :: s =>
    match matchItems items (c :: s) with
    | some r => r.1.flatten :: findAllFrom items (r.1.flatten.length - 1) s
    | none => findAllFrom items 0 s

/-- Go `(*Regexp).FindAllString(s, -1)` for a pattern that cannot match the empty
string; the empty list is the `nil` slice. -/
def Regexp.FindAllString (re : Regexp) (s : Str) : List Str := findAllFrom re.items 0 s

/-- Literal characters of a pattern. -/
def lits (s : Str) : List Item := s.map (fun c => Item.one (fun d => d == c))

/-- Class `[a-zA-Z0-9]`. -/
def isAlnum (c : Char) : Bool :=
  (decide ('a' ≤ c) && decide (c ≤ 'z')) || (decide ('A' ≤ c) && decide (c ≤ 'Z'))
    || (decide ('0' ≤ c) && decide (c ≤ '9'))

/-- Perl class `\s`: tab, line feed, form feed, carriage return, space. -/
def isSpaceClass (c : Char) : Bool :=
  c == Char.ofNat 9 || c == Char.ofNat 10 || c == Char.ofNat 12 || c == Char.ofNat 13 || c == ' '

/-- Perl class `\w`: `[0-9A-Za-z_]`. -/
def isWord (c : Char) : Bool := isAlnum c || c == '_'

/-- The pattern element `.`: any character but the line feed. -/
def isAnyNotNL (c : Char) : Bool := c != Char.ofNat 10

/-! ## Package `path/filepath` (Unix) -/

/-- One step of `filepath.Clean` over the path elements, the cleaned elements
being kept with the last one first: `..` removes the element before it, is
dropped at the root, and is kept at the start of a relative path. -/
def filepath.cleanStep (rooted : Bool) (stack : List Str) (comp : Str) : List Str :=
  if comp = "..".toList then
    match stack with
    | [] => if rooted then [] else [comp]
    | top :: below => if top = "..".toList then if rooted then stack else comp :: stack else below
  else comp :: stack

/-- Is the path rooted, that is, does it start with the separator. -/
def filepath.isRooted (path : Str) : Bool := path.head? == some '/'

/-- The elements of a path that `filepath.Clean` looks at: the pieces between
separators, without the empty ones and the `.` elements. -/
def filepath.elements (path : Str) : List Str :=
  (strings.Split path '/').filter (fun c => !(c.isEmpty || c == ".".toList))

/-- The path made of cleaned elements (last one first); `.` when a relative path
has none. -/
def filepath.render (rooted : Bool) (stack : List Str) : Str :=
  let body := "/".toList.intercalate stack.reverse
  if rooted then '/' :: body else if body.isEmpty then ".".toList else body

/-- The cleaned elements of a path, last one first. -/
def filepath.cleanStack (path : Str) : List Str :=
  (filepath.elements path).foldl (filepath.cleanStep (filepath.isRooted path)) []

/-- Go `filepath.Clean`: repeated separators are merged, `.` elements dropped, inner
`..` elements eliminated with the element before them; the empty result is `.`. -/
def filepath.Clean (path : Str) : Str :=
  filepath.render (filepath.isRooted path) (filepath.cleanStack path)

/-- Go `filepath.Join`: the elements from the first non-empty one on, joined by
the separator and cleaned; the empty string when every element is empty. -/
def filepath.Join (elem : List Str) : Str :=
  match elem.dropWhile (fun e => e.isEmpty) with
  | [] => []
  | es => filepath.Clean ("/".toList.intercalate es)

/-- Go `filepath.Base`: the last element of the path, trailing separators removed;
`.` for the empty path and `/` for a path of separators only. -/
def filepath.Base (path : Str) : Str :=
  if path.isEmpty then ".".toList
  else
    let stripped := path.reverse.dropWhile (fun c => c == '/')
    let last := (stripped.takeWhile (fun c => c != '/')).reverse
    if last.isEmpty then "/".toList else last

/-- Go `filepath.Dir`: all but the last element of the path, cleaned. -/
def filepath.Dir (path : Str) : Str :=
  filepath.Clean (path.reverse.dropWhile (fun c => c != '/')).reverse

/-! ## The operating system -/

/-- What `os.Stat` reports about a path and the program looks at. -/
structure FileInfo where
  isRegular : Bool

/-- An element that can name a file inside a directory. -/
def properName (b : Str) : Prop :=
  b ≠ [] ∧ '/' ∉ b ∧ b ≠ ".".toList ∧ b ≠ "..".toList

instance (b : Str) : Decidable (properName b) :=
  inferInstanceAs (Decidable (b ≠ [] ∧ '/' ∉ b ∧ b ≠ ".".toList ∧ b ≠ "..".toList))

/-- The file-system operations used by `copySampleFile`, over a state `σ`.
`stat` and `openFile` only read the state.  A path that `stat` reports as a regular
file ends in a proper file name: the paths ending in `.`, `..` or `/` name
directories. -/
structure OS (σ : Type) where
  /-- Go `os.Stat`. -/
  stat : σ → Str → Except Err FileInfo
  /-- Go `os.Open`, for reading. -/
  openFile : σ → Str → Option Err
  /-- Go `os.MkdirAll`. -/
  mkdirAll : Str → σ → Option Err × σ
  /-- Go `os.Create`: creates or truncates the file. -/
  create : Str → σ → Option Err × σ
  /-- Go `io.Copy` from the opened source into the created destination. -/
  copy : Str → Str → σ → Option Err × σ
  /-- Regular files have proper names. -/
  regular_base : ∀ st p info, stat st p = Except.ok info → info.isRegular = true →
    properName (filepath.Base p)

/-! ## The program -/

/-- Class `[a-zA-Z0-9\s\/:\-']` of the pattern of `scanFileForSamples`. -/
def isWavPathChar (c : Char) : Bool :=
  isAlnum c || isSpaceClass c || c == '/' || c == ':' || c == '-' || c == Char.ofNat 39

/-- The pattern `Bitwig[a-zA-Z0-9\s\/:\-']+\.wav` of `scanFileForSamples`. -/
def wavInFolderRE : Regexp where
  items := lits "Bitwig".toList ++ [Item.rep isWavPathChar 1 none] ++ lits ".wav".toList
  groups := []

/-- Class `[\w -]` of the pattern of `getPresetName`. -/
def isPresetNameChar (c : Char) : Bool := isWord c || c == ' ' || c == '-'

/-- The pattern `([\w -]+).bwpreset` of `getPresetName`; its `.` is not escaped. -/
def presetNameRE : Regexp where
  items := [Item.rep isPresetNameChar 1 none, Item.one isAnyNotNL] ++ lits "bwpreset".toList
  groups := [(0, 1)]

/-- The pattern `([a-zA-Z0-9]{1,2}).wav` of `getSampleVelocity`; its `.` is not escaped. -/
def velocityRE : Regexp where
  items := [Item.rep isAlnum 1 (some 2), Item.one isAnyNotNL] ++ lits "wav".toList
  groups := [(0, 1)]

/-- The library-path marker removed by `cleanBwPresetSampleText`. -/
def libraryMarker : Str := ":7/samples".toList

/-- Source `cleanBwPresetSampleText`: `strings.Replace(s, ":7/samples", "", 1)`. -/
def cleanBwPresetSampleText (s : Str) : Str := strings.Replace s libraryMarker [] 1

/-- What reading a file with a `bufio.Scanner` delivers: the lines returned by
`Scan`/`Text`, in order, and the value of `Err` once `Scan` has returned false. -/
structure ScannedFile where
  lines : List Str
  err : Option Err

/-- The loop of `scanFileForSamples` over the lines of the file: the cleaned last
match of every line that has a match is appended. -/
def scanLines (samplePaths : List Str) : List Str → List Str
  | [] => samplePaths
  | text :: rest =>
    match (wavInFolderRE.FindAllString text).getLast? with
    | some last => scanLines (samplePaths ++ [cleanBwPresetSampleText last]) rest
    | none => scanLines samplePaths rest

/-- Source `scanFileForSamples`; `openScan` is `os.Open` followed by the scanner. -/
def scanFileForSamples (openScan : Str → Except Err ScannedFile) (path : Str) :
    Except Err (List Str) :=
  match openScan path with
  | Except.error e => Except.error e
  | Except.ok f =>
    let samplePaths := scanLines [] f.lines
    match f.err with
    | some e => Except.error e
    | none => Except.ok samplePaths

/-- The prefix removed by `getSampleType`. -/
def samplePrefix : Str := "Bitwig/Nektar's Acoustic Drums/samples/".toList

/-- Source `getSampleType`. -/
def getSampleType (s : Str) : Str :=
  let s := strings.TrimPrefix s samplePrefix
  (strings.Split s '/').headD []

/-- Source `getPresetName`. -/
def getPresetName (s : Str) : Str :=
  match presetNameRE.FindStringSubmatch s with
  | none => strings.TrimSuffix (filepath.Base s) ".bwpreset".toList
  | some mtch =>
    if mtch.length < 2 then strings.TrimSuffix (filepath.Base s) ".bwpreset".toList
    else mtch.getD 1 []

/-- Source `getSampleVelocity`. -/
def getSampleVelocity (s : Str) : Str :=
  match velocityRE.FindStringSubmatch s with
  | some mtch =>
    if mtch.length < 2 then
      (strings.Split (strings.TrimSuffix (filepath.Base s) ".wav".toList) ' ').getLastD []
    else mtch.getD 1 []
  | none => (strings.Split (strings.TrimSuffix (filepath.Base s) ".wav".toList) ' ').getLastD []

/-- Source `getDestFilePath`. -/
def getDestFilePath (dir samplePath : Str) : Str :=
  filepath.Join [dir, filepath.Base samplePath]

/-- Source `copySampleFile`. -/
def copySampleFile {σ : Type} (os : OS σ) (src dest : Str) (st : σ) : Option Err × σ :=
  match os.stat st src with
  | Except.error e => (some e, st)
  | Except.ok sourceFileStat =>
    if !sourceFileStat.isRegular then (some (src ++ " is not a regular file".toList), st)
    else
      match os.openFile st src with
      | some e => (some e, st)
      | none =>
        match os.mkdirAll (filepath.Dir dest) st with
        | (some e, st1) => (some e, st1)
        | (none, st1) =>
          match os.create dest st1 with
          | (some e, st2) => (some e, st2)
          | (none, st2) => os.copy dest src st2

/-- A file copy in the role of `copySampleFile`: source, destination, state. -/
abbrev CopyFn (σ : Type) := Str → Str → σ → Option Err × σ

/-- Source `processSample`, over the copy operation it calls (`copySampleFile os` in
the program). -/
def processSample {σ : Type} (copy : CopyFn σ) (name samplePath _typ vel : Str) (st : σ) :
    Option Err × σ :=
  let r :=
    if strings.Contains samplePath "Rim".toList then
      copy samplePath
        (getDestFilePath (filepath.Join ["export".toList, name, "rim".toList]) samplePath) st
    else
      copy samplePath
        (getDestFilePath (filepath.Join ["export".toList, name, vel]) samplePath) st
  match r with
  | (some e, st1) => (some e, st1)
  | (none, st1) =>
    match copy samplePath
        (getDestFilePath (filepath.Join ["export".toList, name, "all".toList]) samplePath) st1 with
    | (some e, st2) => (some e, st2)
    | (none, st2) => (none, st2)

/-- The message logged by `processPreset` for a sample that failed. -/
def sampleErrorLine (s name e : Str) : Str :=
  "failed to process sample '".toList ++ s ++ "' for preset '".toList ++ name ++ "': ".toList ++ e

/-- The loop of `processPreset` over the samples: the error lines logged and the
final state.  A sample that fails is logged and the loop goes on. -/
def processPresetLoop {σ : Type} (copy : CopyFn σ) (name baseSamplePath : Str) :
    List Str → σ → List Str × σ
  | [], st => ([], st)
  | s :: rest, st =>
    let samplePath := filepath.Join [baseSamplePath, s]
    let sampleType := getSampleType s
    let sampleVelocity := getSampleVelocity s
    let r := processSample copy name samplePath sampleType sampleVelocity st
    let logged :=
      match r.1 with
      | some e => [sampleErrorLine s name e]
      | none => []
    let r2 := processPresetLoop copy name baseSamplePath rest r.2
    (logged ++ r2.1, r2.2)

/-- Source `processPreset`: the returned error (always `nil`), the error lines
logged, and the final state. -/
def processPreset {σ : Type} (copy : CopyFn σ) (name baseSamplePath : Str)
    (samples : List Str) (st : σ) : Option Err × List Str × σ :=
  let r := processPresetLoop copy name baseSamplePath samples st
  (none, r.1, r.2)

/-- A copy operation that only records the calls made to it, the outcome of each
call being given by `outcome` from the calls made before and the arguments. -/
def recordCopy (outcome : List (Str × Str) → Str → Str → Option Err) :
    CopyFn (List (Str × Str)) :=
  fun src dest calls => (outcome calls src dest, calls ++ [(src, dest)])

/-! ## Specification vocabulary and example inputs -/

/-- What the text matched by a pattern element looks like. -/
def ItemOK : Item → Str → Prop
  | Item.one p, seg => ∃ c, seg = [c] ∧ p c = true
  | Item.rep p lo hi, seg =>
    (∀ c ∈ seg, p c = true) ∧ lo ≤ seg.length ∧ ∀ h, hi = some h → seg.length ≤ h

/-- A match of the pattern of `scanFileForSamples`: `Bitwig`, a non-empty run of
characters of the class, `.wav`. -/
def IsWavRef (m : Str) : Prop :=
  ∃ mid : Str, m = "Bitwig".toList ++ mid ++ ".wav".toList ∧ mid ≠ [] ∧
    ∀ c ∈ mid, isWavPathChar c = true

/-- The line contains a match of the pattern of `scanFileForSamples`. -/
def HasWavRef (line : Str) : Prop :=
  ∃ pre m post : Str, line = pre ++ m ++ post ∧ IsWavRef m

/-- A three-line document: the second line has no match, the third has two. -/
def exampleScan : Str → Except Err ScannedFile := fun _ =>
  Except.ok
    { lines := ["x Bitwig/Kit:7/samples/Kick 1.wav y".toList, "no sample here".toList,
        "Bitwig/a.wav Bitwig/Snare/Rim 2.wav".toList],
      err := none }

/-- The reference of the end-to-end example. -/
def kickRef : Str := "Bitwig/Nektar's Acoustic Drums/samples/Kick/Kick 1 v5.wav".toList

/-- A preset document whose only line embeds `kickRef`. -/
def kickScan : Str → Except Err ScannedFile := fun _ =>
  Except.ok
    { lines := ["...Bitwig/Nektar's Acoustic Drums/samples/Kick/Kick 1 v5.wav...".toList],
      err := none }

/-- The sample library of a user whose home directory is `/Users/u`. -/
def exampleSampleRoot : Str :=
  filepath.Join ["/Users/u".toList,
    "/Library/Application Support/Bitwig/Bitwig Studio/installed-packages/1.0/samples/".toList]

/-- A reference, of the shape `scanFileForSamples` extracts, whose file name contains
the letters `wav` before the suffix. -/
def soundwaveRef : Str := "Bitwig/Nektar's Acoustic Drums/samples/Kick/Soundwave 1.wav".toList

/-- The preset directory of a user whose home directory is `/Users/u`, as the
search pattern of `main` has it. -/
def examplePresetDir : Str :=
  ("/Users/u/Library/Application Support/Bitwig/Bitwig Studio/installed-packages/1.0/presets/"
    ++ "Bitwig/Nektar's Acoustic Drums").toList

/-- A path element as `filepath.Clean` keeps it: non-empty, without separator, not `.`. -/
def goodElement (c : Str) : Prop := c ≠ [] ∧ '/' ∉ c ∧ c ≠ ".".toList

/-- Cleaned elements (last one first): every element is good, and a `..` element
occurs only in a relative path with nothing but `..` elements before it. -/
def CanonStack (rooted : Bool) : List Str → Prop
  | [] => True
  | top :: below =>
    goodElement top ∧ CanonStack rooted below ∧
      (top = "..".toList → rooted = false ∧ ∀ c ∈ below, c = "..".toList)

/-- The directory element `processSample` chooses for a sample: `rim` when the path
contains `Rim`, the velocity label otherwise. -/
def categoryOf (samplePath vel : Str) : Str :=
  if strings.Contains samplePath "Rim".toList then "rim".toList else vel

/-- A small file system for examples: each cleaned path is a directory (`none`) or
a regular file with its content. -/
abbrev ToyFS := List (Str × Option Str)

/-- What the path names in the file system, if anything. -/
def toyLookup (fs : ToyFS) (p : Str) : Option (Option Str) :=
  (fs.find? (fun e => e.1 == filepath.Clean p)).map (fun e => e.2)

/-- The file system with the path bound to a new node. -/
def toySet (fs : ToyFS) (p : Str) (node : Option Str) : ToyFS :=
  (filepath.Clean p, node) :: fs.filter (fun e => e.1 != filepath.Clean p)

/-- The `os.Stat` of the example file system. -/
def toyStat (fs : ToyFS) (p : Str) : Except Err FileInfo :=
  match toyLookup fs p with
  | none => Except.error "no such file or directory".toList
  | some none => Except.ok { isRegular := false }
  | some (some _) =>
    if properName (filepath.Base p) then Except.ok { isRegular := true }
    else Except.error "not a directory".toList

/-- The example file system as an `OS`. -/
def toyOS : OS ToyFS where
  stat := toyStat
  openFile := fun fs p =>
    match toyStat fs p with
    | Except.ok _ => none
    | Except.error e => some e
  mkdirAll := fun p fs =>
    match toyLookup fs p with
    | some (some _) => (some "not a directory".toList, fs)
    | _ => (none, toySet fs p none)
  create := fun p fs =>
    match toyLookup fs p with
    | some none => (some "is a directory".toList, fs)
    | _ => (none, toySet fs p (some []))
  copy := fun dest src fs =>
    match toyLookup fs src with
    | some (some content) => (none, toySet fs dest (some content))
    | _ => (some "read error".toList, fs)
  regular_base := by
    intro st p info h hreg
    unfold toyStat at h
    split at h
    · cases h
    · cases h
      cases hreg
    · split at h
      · assumption
      · cases h

/-- The destination of the first copy of `processSample`: the base name of the
sample inside the category directory. -/
def categoryDest (name samplePath vel : Str) : Str :=
  filepath.Join [filepath.Join ["export".toList, name, categoryOf samplePath vel],
    filepath.Base samplePath]

/-- The destination of the second copy of `processSample`: the base name of the
sample inside the `all` directory. -/
def allDest (name samplePath : Str) : Str :=
  filepath.Join [filepath.Join ["export".toList, name, "all".toList], filepath.Base samplePath]

/-- The copies `processPreset` may attempt for one reference: the category copy
alone, or the category copy followed by the `all` copy. -/
def AttemptOf (name baseSamplePath s : Str) (calls : List (Str × Str)) : Prop :=
  calls = [(filepath.Join [baseSamplePath, s],
      categoryDest name (filepath.Join [baseSamplePath, s]) (getSampleVelocity s))]
  ∨ calls = [(filepath.Join [baseSamplePath, s],
        categoryDest name (filepath.Join [baseSamplePath, s]) (getSampleVelocity s)),
      (filepath.Join [baseSamplePath, s], allDest name (filepath.Join [baseSamplePath, s]))]

/-- Copy outcomes for an example run: the very first copy fails, every later one
succeeds. -/
def firstCopyFails : List (Str × Str) → Str → Str → Option Err :=
  fun calls _ _ => if calls.isEmpty then some "disk full".toList else none

/-- An example file system with a directory where a sample is expected. -/
def toyWithDirectory : ToyFS :=
  [("/lib/Snare".toList, none), ("/lib/Kick 1.wav".toList, some "RIFF".toList)]

/-! ## Facts about the matcher -/

theorem firstDown_some {α : Type} (f : Nat → Option α) (lo k : Nat) (r : α)
    (h : firstDown f lo k = some r) : ∃ j, lo ≤ j ∧ j ≤ k ∧ f j = some r := by
  induction k with
  | zero =>
    simp only [firstDown] at h
    split at h
    · exact ⟨0, by omega, le_refl _, h⟩
    · cases h
  | succ k ih =>
    simp only [firstDown] at h
    split at h
    · cases h
    · split at h
      · rename_i r1 hr
        cases h
        exact ⟨k + 1, by omega, le_refl _, hr⟩
      · obtain ⟨j, h1, h2, h3⟩ := ih h
        exact ⟨j, h1, by omega, h3⟩

theorem firstDown_top {α : Type} (f : Nat → Option α) (lo k : Nat) (r : α) (hlo : lo ≤ k)
    (h : f k = some r) : firstDown f lo k = some r := by
  cases k with
  | zero =>
    have : lo = 0 := by omega
    simp [firstDown, this, h]
  | succ k =>
    have : ¬ (k + 1 < lo) := by omega
    simp [firstDown, this, h]

theorem firstDown_none {α : Type} (f : Nat → Option α) (lo k : Nat)
    (h : ∀ j, lo ≤ j → j ≤ k → f j = none) : firstDown f lo k = none := by
  induction k with
  | zero =>
    simp only [firstDown]
    split
    · exact h 0 (by omega) (le_refl _)
    · rfl
  | succ k ih =>
    simp only [firstDown]
    split
    · rfl
    · rw [h (k + 1) (by omega) (le_refl _)]
      exact ih (fun j h1 h2 => h j h1 (by omega))

theorem maxRun_le_takeWhile (p : Char → Bool) (hi : Option Nat) (s : Str) :
    maxRun p hi s ≤ (s.takeWhile p).length := by
  unfold maxRun
  cases hi with
  | none => exact le_refl _
  | some h => exact Nat.min_le_right _ _

theorem maxRun_le_hi (p : Char → Bool) (h : Nat) (s : Str) : maxRun p (some h) s ≤ h := by
  unfold maxRun
  exact Nat.min_le_left _ _

theorem take_all_of_le_takeWhile (p : Char → Bool) (s : Str) (j : Nat)
    (hj : j ≤ (s.takeWhile p).length) : ∀ c ∈ s.take j, p c = true := by
  intro c hc
  have hpre : s.takeWhile p <+: s := List.takeWhile_prefix p
  have h1 : (s.takeWhile p).take j = s.take j := by
    obtain ⟨t, ht⟩ := hpre
    conv_rhs => rw [← ht]
    rw [List.take_append_of_le_length hj]
  rw [← h1] at hc
  exact List.mem_takeWhile_imp (List.mem_of_mem_take hc)

theorem matchItems_sound : ∀ (items : List Item) (s : Str) (r : List Str × Str),
    matchItems items s = some r → s = r.1.flatten ++ r.2 ∧ List.Forall₂ ItemOK items r.1 := by
  intro items
  induction items with
  | nil =>
    intro s r h
    simp only [matchItems, Option.some.injEq] at h
    subst h
    simp
  | cons it items ih =>
    intro s r h
    cases it with
    | one p =>
      cases s with
      | nil => simp [matchItems] at h
      | cons c s =>
        simp only [matchItems] at h
        split at h
        · rename_i hp
          cases hm : matchItems items s with
          | none => simp [hm] at h
          | some r1 =>
            simp only [hm, Option.map_some', Option.some.injEq] at h
            subst h
            obtain ⟨h1, h2⟩ := ih s r1 hm
            refine ⟨?_, ?_⟩
            · simp only [List.flatten_cons, List.singleton_append, List.cons_append,
                List.nil_append]
              rw [← h1]
            · exact List.Forall₂.cons ⟨c, rfl, hp⟩ h2
        · cases h
    | rep p lo hi =>
      simp only [matchItems] at h
      obtain ⟨j, hlo, hk, hf⟩ := firstDown_some _ _ _ _ h
      cases hm : matchItems items (s.drop j) with
      | none => simp [hm] at hf
      | some r1 =>
        simp only [hm, Option.map_some', Option.some.injEq] at hf
        subst hf
        obtain ⟨h1, h2⟩ := ih _ r1 hm
        have hjt : j ≤ (s.takeWhile p).length := le_trans hk (maxRun_le_takeWhile p hi s)
        have hjs : j ≤ s.length := le_trans hjt (List.takeWhile_prefix p).length_le
        refine ⟨?_, ?_⟩
        · simp only [List.flatten_cons, List.append_assoc]
          rw [← h1, List.take_append_drop]
        · refine List.Forall₂.cons ⟨take_all_of_le_takeWhile p s j hjt, ?_, ?_⟩ h2
          · rw [List.length_take]; omega
          · intro h0 hh
            subst hh
            have := maxRun_le_hi p h0 s
            rw [List.length_take]; omega

theorem wavInFolderRE_items : wavInFolderRE.items =
    [Item.one (fun d => d == 'B'), Item.one (fun d => d == 'i'), Item.one (fun d => d == 't'),
      Item.one (fun d => d == 'w'), Item.one (fun d => d == 'i'), Item.one (fun d => d == 'g'),
      Item.rep isWavPathChar 1 none,
      Item.one (fun d => d == '.'), Item.one (fun d => d == 'w'), Item.one (fun d => d == 'a'),
      Item.one (fun d => d == 'v')] := rfl

theorem wav_match_sound (t : Str) (r : List Str × Str)
    (h : matchItems wavInFolderRE.items t = some r) :
    t = r.1.flatten ++ r.2 ∧ IsWavRef r.1.flatten := by
  obtain ⟨h1, h2⟩ := matchItems_sound _ _ _ h
  refine ⟨h1, ?_⟩
  rw [wavInFolderRE_items] at h2
  simp only [List.forall₂_cons_left_iff, List.forall₂_nil_left_iff, ItemOK] at h2
  obtain ⟨_, _, ⟨c1, rfl, e1⟩, ⟨_, _, ⟨c2, rfl, e2⟩, ⟨_, _, ⟨c3, rfl, e3⟩, ⟨_, _, ⟨c4, rfl, e4⟩,
    ⟨_, _, ⟨c5, rfl, e5⟩, ⟨_, _, ⟨c6, rfl, e6⟩, ⟨mid, _, ⟨hmid, hlen, _⟩, ⟨_, _, ⟨d1, rfl, g1⟩,
    ⟨_, _, ⟨d2, rfl, g2⟩, ⟨_, _, ⟨d3, rfl, g3⟩, ⟨_, _, ⟨d4, rfl, g4⟩, rfl, rfl⟩, rfl⟩, rfl⟩,
    rfl⟩, rfl⟩, rfl⟩, rfl⟩, rfl⟩, rfl⟩, rfl⟩, hr⟩ := h2
  simp only [beq_iff_eq] at e1 e2 e3 e4 e5 e6 g1 g2 g3 g4
  subst e1 e2 e3 e4 e5 e6 g1 g2 g3 g4
  refine ⟨mid, ?_, ?_, hmid⟩
  · rw [hr]
    simp
  · intro hnil
    subst hnil
    simp at hlen

theorem wav_match_complete (mid post : Str) (hne : mid ≠ [])
    (hmid : ∀ c ∈ mid, isWavPathChar c = true) :
    ∃ r, matchItems wavInFolderRE.items ("Bitwig".toList ++ mid ++ ".wav".toList ++ post) = some r := by
  have htw : (mid ++ ('.' :: 'w' :: 'a' :: 'v' :: post)).takeWhile isWavPathChar = mid := by
    rw [List.takeWhile_append_of_pos hmid, List.takeWhile_cons_of_neg (by decide)]
    simp
  have hlen : 1 ≤ mid.length := by
    cases mid with
    | nil => exact absurd rfl hne
    | cons c m => simp
  have hs : "Bitwig".toList ++ mid ++ ".wav".toList ++ post =
      'B' :: 'i' :: 't' :: 'w' :: 'i' :: 'g' :: (mid ++ ('.' :: 'w' :: 'a' :: 'v' :: post)) := by
    simp
  rw [hs, wavInFolderRE_items]
  simp only [matchItems, beq_self_eq_true, if_true, maxRun, htw]
  rw [firstDown_top _ 1 mid.length _ hlen (by simp [matchItems]; rfl)]
  simp

theorem findAllFrom_mem (items : List Item) : ∀ (s : Str) (k : Nat) (m : Str),
    m ∈ findAllFrom items k s →
      ∃ t r, t <:+ s ∧ matchItems items t = some r ∧ m = r.1.flatten := by
  intro s
  induction s with
  | nil =>
    intro k m h
    simp [findAllFrom] at h
  | cons c s ih =>
    intro k m h
    cases k with
    | succ k =>
      simp only [findAllFrom] at h
      obtain ⟨t, r, h1, h2, h3⟩ := ih k m h
      exact ⟨t, r, h1.trans (List.suffix_cons c s), h2, h3⟩
    | zero =>
      simp only [findAllFrom] at h
      split at h
      · rename_i r hr
        rcases List.mem_cons.mp h with h | h
        · exact ⟨c :: s, r, List.suffix_refl _, hr, h⟩
        · obtain ⟨t, r1, h1, h2, h3⟩ := ih _ m h
          exact ⟨t, r1, h1.trans (List.suffix_cons c s), h2, h3⟩
      · obtain ⟨t, r1, h1, h2, h3⟩ := ih _ m h
        exact ⟨t, r1, h1.trans (List.suffix_cons c s), h2, h3⟩

theorem findAllFrom_ne_nil (items : List Item) : ∀ (s t : Str) (r : List Str × Str),
    t <:+ s → t ≠ [] → matchItems items t = some r → findAllFrom items 0 s ≠ [] := by
  intro s
  induction s with
  | nil =>
    intro t r hsuf hne _
    exact absurd (List.suffix_nil.mp hsuf) hne
  | cons c s ih =>
    intro t r hsuf hne hm
    simp only [findAllFrom]
    split
    · simp
    · rename_i hnone
      rcases List.suffix_cons_iff.mp hsuf with h | h
      · subst h
        rw [hm] at hnone
        cases hnone
      · exact ih t r h hne hm

theorem scanLines_eq (lines : List Str) : ∀ acc : List Str,
    scanLines acc lines = acc ++ lines.filterMap
      (fun line => (wavInFolderRE.FindAllString line).getLast?.map cleanBwPresetSampleText) := by
  induction lines with
  | nil => intro acc; simp [scanLines]
  | cons l ls ih =>
    intro acc
    simp only [scanLines]
    split
    · rename_i last hl
      rw [ih, List.filterMap_cons, hl]
      simp
    · rename_i hl
      rw [ih, List.filterMap_cons, hl]
      simp

theorem findAll_wav_nil_iff (line : Str) :
    wavInFolderRE.FindAllString line = [] ↔ ¬ HasWavRef line := by
  constructor
  · intro h ⟨pre, m, post, hline, mid, hm, hne, hmid⟩
    obtain ⟨r, hr⟩ := wav_match_complete mid post hne hmid
    refine findAllFrom_ne_nil wavInFolderRE.items line (m ++ post) r ?_ ?_ ?_ h
    · exact ⟨pre, by rw [hline, List.append_assoc]⟩
    · rw [hm]; simp
    · rw [hm]; exact hr
  · intro h
    by_contra hne
    obtain ⟨m, hm⟩ := List.exists_mem_of_ne_nil _ hne
    obtain ⟨t, r, ⟨pre, hpre⟩, hr, hmr⟩ := findAllFrom_mem _ _ _ _ hm
    obtain ⟨h1, h2⟩ := wav_match_sound t r hr
    exact h ⟨pre, r.1.flatten, r.2, by rw [← hpre, h1, List.append_assoc], h2⟩

/-- C1: `scanFileForSamples`, on a file that opens and scans without error, returns
in line order the normalised last match of every line that has a match of the
pattern `Bitwig[a-zA-Z0-9\s/:\-']+\.wav`; a line has no match exactly when it
contains no text of that shape, and then contributes nothing, so a document
without a matching line yields the empty sequence. -/
theorem scanFileForSamples_last_match_per_line (openScan : Str → Except Err ScannedFile)
    (path : Str) (f : ScannedFile) (hopen : openScan path = Except.ok f)
    (herr : f.err = none) :
    scanFileForSamples openScan path = Except.ok (f.lines.filterMap
        (fun line => (wavInFolderRE.FindAllString line).getLast?.map cleanBwPresetSampleText))
      ∧ (∀ line, (wavInFolderRE.FindAllString line).getLast? = none ↔ ¬ HasWavRef line)
      ∧ (∀ line m, m ∈ wavInFolderRE.FindAllString line → IsWavRef m)
      ∧ ((∀ line ∈ f.lines, ¬ HasWavRef line) →
          scanFileForSamples openScan path = Except.ok []) := by
  have hmain : scanFileForSamples openScan path = Except.ok (f.lines.filterMap
        (fun line => (wavInFolderRE.FindAllString line).getLast?.map cleanBwPresetSampleText)) := by
    simp only [scanFileForSamples, hopen, herr]
    rw [scanLines_eq]
    simp
  refine ⟨hmain, ?_, ?_, ?_⟩
  · intro line
    rw [List.getLast?_eq_none_iff]
    exact findAll_wav_nil_iff line
  · intro line m hm
    obtain ⟨t, r, _, hr, hmr⟩ := findAllFrom_mem _ _ _ _ hm
    rw [hmr]
    exact (wav_match_sound t r hr).2
  · intro hall
    rw [hmain]
    congr 1
    rw [List.filterMap_eq_nil_iff]
    intro line hl
    rw [(findAll_wav_nil_iff line).mpr (hall line hl)]
    rfl

/-- C1 on a three-line document: two references, the second line contributes nothing. -/
theorem scanFileForSamples_last_match_per_line_witness :
    scanFileForSamples exampleScan "kit.bwpreset".toList =
      Except.ok ["Bitwig/Kit/Kick 1.wav".toList, "Bitwig/Snare/Rim 2.wav".toList] :=
  (scanFileForSamples_last_match_per_line exampleScan "kit.bwpreset".toList _ rfl rfl).1.trans
    (congrArg Except.ok (by decide))

/-! ## Facts about `strings` -/

theorem contains_iff_infix (sub : Str) : ∀ s : Str, strings.Contains s sub = true ↔ sub <:+: s := by
  intro s
  induction s with
  | nil =>
    simp only [strings.Contains, List.isEmpty_iff, List.infix_nil]
  | cons c s ih =>
    simp only [strings.Contains, Bool.or_eq_true, List.isPrefixOf_iff_prefix, ih,
      List.infix_cons_iff]

theorem replaceGo_zero (old new : Str) : ∀ (s : Str) (k : Nat),
    strings.replaceGo old new 0 k s = s.drop k := by
  intro s
  induction s with
  | nil => intro k; cases k <;> simp [strings.replaceGo]
  | cons c s ih =>
    intro k
    cases k with
    | zero => simp [strings.replaceGo]
    | succ k => simp [strings.replaceGo, ih]

theorem replace_absent (old new : Str) (n : Nat) : ∀ s : Str, ¬ old <:+: s →
    strings.Replace s old new n = s := by
  intro s
  unfold strings.Replace
  induction s with
  | nil => intro _; cases n <;> simp [strings.replaceGo]
  | cons c s ih =>
    intro h
    cases n with
    | zero => simp [strings.replaceGo]
    | succ n =>
      have hpre : old.isPrefixOf (c :: s) = false := by
        rw [Bool.eq_false_iff]
        intro hp
        exact h (List.isPrefixOf_iff_prefix.mp hp).isInfix
      have hs : ¬ old <:+: s := fun hi => h (List.infix_cons hi)
      simp only [strings.replaceGo, hpre, Bool.false_eq_true, if_false, ih hs]

theorem replace_first (h : Char) (tl new : Str) (hh : h ∉ tl) : ∀ a b : Str,
    ¬ (h :: tl) <:+: a ++ b →
      strings.Replace (a ++ (h :: tl) ++ b) (h :: tl) new 1 = a ++ new ++ b := by
  intro a
  unfold strings.Replace
  induction a with
  | nil =>
    intro b _
    have hp : (h :: tl).isPrefixOf (h :: (tl ++ b)) = true :=
      List.isPrefixOf_iff_prefix.mpr (List.prefix_append (h :: tl) b)
    simp only [List.nil_append, List.cons_append]
    rw [strings.replaceGo, if_pos hp, replaceGo_zero]
    simp
  | cons c a ih =>
    intro b hno
    have hs : ¬ (h :: tl) <:+: a ++ b := fun hi => hno (List.infix_cons hi)
    have hpre : (h :: tl).isPrefixOf (c :: (a ++ (h :: tl) ++ b)) = false := by
      rw [Bool.eq_false_iff]
      intro hp
      have hp1 : (h :: tl) <+: (c :: a) ++ ((h :: tl) ++ b) := by
        have := List.isPrefixOf_iff_prefix.mp hp
        simpa using this
      have hp2 : (c :: a) <+: (c :: a) ++ ((h :: tl) ++ b) := List.prefix_append _ _
      rcases Nat.lt_or_ge (c :: a).length (h :: tl).length with hlt | hge
      · have hpa : (c :: a) <+: (h :: tl) := List.prefix_of_prefix_length_le hp2 hp1 hlt.le
        obtain ⟨x, hx⟩ := hpa
        have hx2 : x <+: (h :: tl) ++ b := by
          have hp3 : (c :: a) ++ x <+: (c :: a) ++ ((h :: tl) ++ b) := by
            rw [hx]
            exact hp1
          exact (List.prefix_append_right_inj (c :: a)).mp hp3
        cases x with
        | nil =>
          rw [List.append_nil] at hx
          rw [hx] at hlt
          exact absurd hlt (lt_irrefl _)
        | cons y x =>
          have hy : y = h := (List.cons_prefix_cons.mp hx2).1
          subst hy
          have htl : tl = a ++ y :: x := by
            have := hx
            simp only [List.cons_append, List.cons.injEq] at this
            exact this.2.symm
          exact hh (by rw [htl]; simp)
      · have hpa : (h :: tl) <+: (c :: a) := List.prefix_of_prefix_length_le hp1 hp2 hge
        exact hno (hpa.isInfix.trans (List.infix_append' [] (c :: a) b))
    simp only [List.cons_append] at hpre ⊢
    simp only [strings.replaceGo, hpre, Bool.false_eq_true, if_false]
    have := ih b hs
    simp only [List.cons_append] at this
    rw [this]

/-- C2 (amended): when the text around one occurrence of the marker `:7/samples`
contains no occurrence itself, `cleanBwPresetSampleText` removes that occurrence,
leaves marker-free text unchanged, its result does not contain the marker and
normalising again changes nothing. -/
theorem cleanBwPresetSampleText_single_marker (a b : Str)
    (h : strings.Contains (a ++ b) libraryMarker = false) :
    cleanBwPresetSampleText (a ++ libraryMarker ++ b) = a ++ b
      ∧ cleanBwPresetSampleText (a ++ b) = a ++ b
      ∧ strings.Contains (cleanBwPresetSampleText (a ++ libraryMarker ++ b)) libraryMarker = false
      ∧ cleanBwPresetSampleText (cleanBwPresetSampleText (a ++ libraryMarker ++ b)) =
          cleanBwPresetSampleText (a ++ libraryMarker ++ b) := by
  have hno : ¬ libraryMarker <:+: a ++ b := by
    rw [← contains_iff_infix, h]
    simp
  have h1 : cleanBwPresetSampleText (a ++ libraryMarker ++ b) = a ++ b := by
    have := replace_first ':' "7/samples".toList [] (by decide) a b hno
    simpa [cleanBwPresetSampleText, libraryMarker] using this
  have h2 : cleanBwPresetSampleText (a ++ b) = a ++ b := replace_absent _ _ _ _ hno
  exact ⟨h1, h2, by rw [h1]; exact h, by rw [h1, h2]⟩

/-- C2 (amended) on a reference with one marker. -/
theorem cleanBwPresetSampleText_single_marker_witness :
    cleanBwPresetSampleText ("Bitwig/Kit".toList ++ libraryMarker ++ "/Kick 1.wav".toList) =
      "Bitwig/Kit".toList ++ "/Kick 1.wav".toList :=
  (cleanBwPresetSampleText_single_marker "Bitwig/Kit".toList "/Kick 1.wav".toList (by decide)).1

/-- C2 (as stated) fails: only the first occurrence of the marker is removed, so
a reference with two occurrences still contains the marker after normalising,
and normalising again changes it. -/
theorem cleanBwPresetSampleText_not_idempotent :
    strings.Contains
        (cleanBwPresetSampleText "Bitwig/Kit:7/samples:7/samples/Kick 1.wav".toList)
        libraryMarker = true
      ∧ cleanBwPresetSampleText
          (cleanBwPresetSampleText "Bitwig/Kit:7/samples:7/samples/Kick 1.wav".toList) ≠
        cleanBwPresetSampleText "Bitwig/Kit:7/samples:7/samples/Kick 1.wav".toList := by
  decide

theorem trimPrefix_append (pre rest : Str) : strings.TrimPrefix (pre ++ rest) pre = rest := by
  have h : strings.HasPrefix (pre ++ rest) pre = true :=
    List.isPrefixOf_iff_prefix.mpr (List.prefix_append pre rest)
  simp [strings.TrimPrefix, h]

theorem split_head (sep : Char) : ∀ s : Str,
    (strings.Split s sep).headD [] = s.takeWhile (fun c => c != sep) := by
  intro s
  induction s with
  | nil => simp [strings.Split]
  | cons c s ih =>
    simp only [strings.Split]
    split
    · rename_i hc
      simp [hc]
    · rename_i hc
      have htw : List.takeWhile (fun c => c != sep) (c :: s) =
          c :: List.takeWhile (fun c => c != sep) s := by
        simp [List.takeWhile_cons, hc]
      rw [htw, ← ih]
      split
      · rename_i hnil
        simp [hnil]
      · rename_i piece rest hcons
        simp [hcons]

/-- C9: for every `rest`, `getSampleType` of the library prefix followed by `rest` is
the first path segment of `rest`: the text before its first `/`, all of `rest`
when it has none; the result never contains `/`. -/
theorem getSampleType_first_segment (rest : Str) :
    getSampleType (samplePrefix ++ rest) = rest.takeWhile (fun c => c != '/')
      ∧ '/' ∉ getSampleType (samplePrefix ++ rest)
      ∧ (∀ a b : Str, rest = a ++ '/' :: b → '/' ∉ a → getSampleType (samplePrefix ++ rest) = a)
      ∧ ('/' ∉ rest → getSampleType (samplePrefix ++ rest) = rest) := by
  have h : getSampleType (samplePrefix ++ rest) = rest.takeWhile (fun c => c != '/') := by
    simp only [getSampleType, trimPrefix_append, split_head]
  refine ⟨h, ?_, ?_, ?_⟩
  · rw [h]
    intro hmem
    have := List.mem_takeWhile_imp hmem
    simp at this
  · intro a b hab ha
    rw [h, hab, List.takeWhile_append_of_pos (fun c hc => by
      have : c ≠ '/' := fun e => ha (e ▸ hc)
      simpa using this)]
    simp
  · intro hno
    rw [h, List.takeWhile_eq_self_iff]
    intro c hc
    have : c ≠ '/' := fun e => hno (e ▸ hc)
    simpa using this

/-- C9 on the reference of the end-to-end example. -/
theorem getSampleType_first_segment_witness :
    getSampleType (samplePrefix ++ "Kick/Kick 1 v5.wav".toList) = "Kick".toList :=
  (getSampleType_first_segment "Kick/Kick 1 v5.wav".toList).2.2.1
    "Kick".toList "Kick 1 v5.wav".toList (by decide) (by decide)

/-- C5 (failing input): the reference `.../Kick/Soundwave 1.wav` is one that
`scanFileForSamples` extracts unchanged; the character before its `.wav` suffix is
the alphanumeric `1`, yet `getSampleVelocity` returns `un`, taken from `undwav` inside
`Soundwave`, where the unescaped `.` of the pattern matched the letter `d`. -/
theorem getSampleVelocity_soundwave :
    wavInFolderRE.FindAllString soundwaveRef = [soundwaveRef]
      ∧ cleanBwPresetSampleText soundwaveRef = soundwaveRef
      ∧ strings.HasSuffix soundwaveRef " 1.wav".toList = true
      ∧ getSampleVelocity soundwaveRef = "un".toList := by
  decide

/-- C10: the end-to-end example.  Scanning the document whose only line embeds
`Bitwig/Nektar's Acoustic Drums/samples/Kick/Kick 1 v5.wav` yields that single
reference; its sample type is `Kick` and its velocity `v5`; with preset name
`MyKit`, `processSample` copies it to `export/MyKit/v5/Kick 1 v5.wav` and then to
`export/MyKit/all/Kick 1 v5.wav`. -/
theorem end_to_end_kick :
    scanFileForSamples kickScan "MyKit.bwpreset".toList = Except.ok [kickRef]
      ∧ getSampleType kickRef = "Kick".toList
      ∧ getSampleVelocity kickRef = "v5".toList
      ∧ processSample (recordCopy (fun _ _ _ => none)) "MyKit".toList
          (filepath.Join [exampleSampleRoot, kickRef]) (getSampleType kickRef)
          (getSampleVelocity kickRef) [] =
        (none,
          [(filepath.Join [exampleSampleRoot, kickRef], "export/MyKit/v5/Kick 1 v5.wav".toList),
            (filepath.Join [exampleSampleRoot, kickRef],
              "export/MyKit/all/Kick 1 v5.wav".toList)]) := by
  refine ⟨congrArg Except.ok (by decide), by decide, by decide, ?_⟩
  decide

/-! ## Facts about `getPresetName` -/

theorem findFirst_some (items : List Item) : ∀ (s : Str) (segs : List Str),
    findFirst items s = some segs →
      ∃ t r, t <:+ s ∧ matchItems items t = some r ∧ segs = r.1 := by
  intro s
  induction s with
  | nil =>
    intro segs h
    simp only [findFirst] at h
    cases hm : matchItems items [] with
    | none => simp [hm] at h
    | some r =>
      simp only [hm, Option.map_some', Option.some.injEq] at h
      exact ⟨[], r, List.suffix_refl _, hm, h.symm⟩
  | cons c s ih =>
    intro segs h
    simp only [findFirst] at h
    split at h
    · rename_i r hr
      simp only [Option.some.injEq] at h
      exact ⟨c :: s, r, List.suffix_refl _, hr, h.symm⟩
    · obtain ⟨t, r, h1, h2, h3⟩ := ih segs h
      exact ⟨t, r, h1.trans (List.suffix_cons c s), h2, h3⟩

theorem findFirst_none (items : List Item) : ∀ s : Str,
    (∀ t, t <:+ s → matchItems items t = none) → findFirst items s = none := by
  intro s
  induction s with
  | nil =>
    intro h
    simp [findFirst, h [] (List.suffix_refl _)]
  | cons c s ih =>
    intro h
    simp only [findFirst, h (c :: s) (List.suffix_refl _)]
    exact ih (fun t ht => h t (ht.trans (List.suffix_cons c s)))

theorem findFirst_skip (items : List Item) (t : Str) : ∀ pre : Str,
    (∀ u, u ≠ [] → u <:+ pre → matchItems items (u ++ t) = none) →
      findFirst items (pre ++ t) = findFirst items t := by
  intro pre
  induction pre with
  | nil => intro _; rfl
  | cons c pre ih =>
    intro h
    have h0 := h (c :: pre) (by simp) (List.suffix_refl _)
    simp only [List.cons_append] at h0 ⊢
    simp only [findFirst, h0]
    exact ih (fun u hu hs => h u hu (hs.trans (List.suffix_cons c pre)))

theorem presetNameRE_items : presetNameRE.items =
    [Item.rep isPresetNameChar 1 none, Item.one isAnyNotNL,
      Item.one (fun d => d == 'b'), Item.one (fun d => d == 'w'), Item.one (fun d => d == 'p'),
      Item.one (fun d => d == 'r'), Item.one (fun d => d == 'e'), Item.one (fun d => d == 's'),
      Item.one (fun d => d == 'e'), Item.one (fun d => d == 't')] := rfl

theorem preset_match_sound (t : Str) (r : List Str × Str)
    (h : matchItems presetNameRE.items t = some r) :
    ∃ (g : Str) (x : Char), g ≠ [] ∧ (∀ c ∈ g, isPresetNameChar c = true) ∧ isAnyNotNL x = true ∧
      (r.1.take 1).flatten = g ∧ t = g ++ x :: ("bwpreset".toList ++ r.2) := by
  obtain ⟨h1, h2⟩ := matchItems_sound _ _ _ h
  rw [presetNameRE_items] at h2
  simp only [List.forall₂_cons_left_iff, List.forall₂_nil_left_iff, ItemOK] at h2
  obtain ⟨g, _, ⟨hg, hlen, _⟩, ⟨_, _, ⟨x, rfl, hx⟩, ⟨_, _, ⟨c1, rfl, e1⟩, ⟨_, _, ⟨c2, rfl, e2⟩,
    ⟨_, _, ⟨c3, rfl, e3⟩, ⟨_, _, ⟨c4, rfl, e4⟩, ⟨_, _, ⟨c5, rfl, e5⟩, ⟨_, _, ⟨c6, rfl, e6⟩,
    ⟨_, _, ⟨c7, rfl, e7⟩, ⟨_, _, ⟨c8, rfl, e8⟩, rfl, rfl⟩, rfl⟩, rfl⟩, rfl⟩, rfl⟩, rfl⟩, rfl⟩,
    rfl⟩, rfl⟩, hr⟩ := h2
  simp only [beq_iff_eq] at e1 e2 e3 e4 e5 e6 e7 e8
  subst e1 e2 e3 e4 e5 e6 e7 e8
  refine ⟨g, x, ?_, hg, hx, ?_, ?_⟩
  · intro hnil
    subst hnil
    simp at hlen
  · rw [hr]
    simp
  · rw [h1, hr]
    simp

theorem preset_match_complete (n rest : Str) (hne : n ≠ [])
    (hn : ∀ c ∈ n, isPresetNameChar c = true) :
    ∃ r, matchItems presetNameRE.items (n ++ '.' :: ("bwpreset".toList ++ rest)) = some r ∧
      (r.1.take 1).flatten = n := by
  have hs : n ++ '.' :: ("bwpreset".toList ++ rest) =
      n ++ ('.' :: 'b' :: 'w' :: 'p' :: 'r' :: 'e' :: 's' :: 'e' :: 't' :: rest) := by
    simp
  have htw : (n ++ ('.' :: 'b' :: 'w' :: 'p' :: 'r' :: 'e' :: 's' :: 'e' :: 't' :: rest)).takeWhile
      isPresetNameChar = n := by
    rw [List.takeWhile_append_of_pos hn, List.takeWhile_cons_of_neg (by decide)]
    simp
  have hlen : 1 ≤ n.length := by
    cases n with
    | nil => exact absurd rfl hne
    | cons c m => simp
  rw [hs, presetNameRE_items]
  simp only [matchItems, maxRun, htw]
  refine ⟨(n :: [['.'], ['b'], ['w'], ['p'], ['r'], ['e'], ['s'], ['e'], ['t']], rest), ?_, ?_⟩
  · apply firstDown_top _ 1 n.length _ hlen
    simp [matchItems]
    decide
  · simp

theorem getPresetName_of_match (s : Str) (segs : List Str)
    (h : findFirst presetNameRE.items s = some segs) :
    getPresetName s = (segs.take 1).flatten := by
  unfold getPresetName Regexp.FindStringSubmatch
  rw [h]
  simp [presetNameRE]

theorem getPresetName_of_no_match (s : Str) (h : findFirst presetNameRE.items s = none) :
    getPresetName s = strings.TrimSuffix (filepath.Base s) ".bwpreset".toList := by
  unfold getPresetName Regexp.FindStringSubmatch
  rw [h]
  rfl

theorem hasSuffix_iff (s suf : Str) : strings.HasSuffix s suf = true ↔ suf <:+ s := by
  unfold strings.HasSuffix
  rw [List.isPrefixOf_iff_prefix, List.reverse_prefix]

theorem base_ne_nil (path : Str) : filepath.Base path ≠ [] := by
  unfold filepath.Base
  split
  · decide
  · simp only
    split
    · decide
    · rename_i h1 h2
      intro h
      rw [h] at h2
      simp at h2

theorem trimSuffix_eq_nil (b suf : Str) (h : strings.TrimSuffix b suf = []) :
    b = [] ∨ b = suf := by
  unfold strings.TrimSuffix at h
  split at h
  · rename_i hs
    right
    have hsuf : suf <:+ b := (hasSuffix_iff b suf).mp hs
    obtain ⟨pre, hpre⟩ := hsuf
    have hlen : b.length = pre.length + suf.length := by rw [← hpre]; simp
    have htake : b.take (b.length - suf.length) = pre := by
      rw [← hpre, List.length_append, Nat.add_sub_cancel]
      simp
    rw [htake] at h
    rw [← hpre, h]
    simp
  · left
    exact h

theorem prefix_of_prefix_append_cons (w a : Str) (c : Char) (x : Str) (hc : c ∉ w)
    (h : w <+: a ++ c :: x) : w <+: a := by
  rcases List.prefix_or_prefix_of_prefix h (List.prefix_append a (c :: x)) with h1 | h1
  · exact h1
  · obtain ⟨z, hz⟩ := h1
    cases z with
    | nil =>
      rw [List.append_nil] at hz
      rw [hz]
    | cons y z =>
      have h2 : a ++ y :: z <+: a ++ c :: x := by rw [hz]; exact h
      have h3 := (List.prefix_append_right_inj a).mp h2
      have hy : y = c := (List.cons_prefix_cons.mp h3).1
      exact absurd (by rw [← hz, hy]; simp) hc

theorem no_match_of_no_bwpreset (s : Str)
    (h : strings.Contains s "bwpreset".toList = false) (c d : Char) :
    ¬ (c :: d :: "bwpreset".toList) <:+: s := by
  intro hin
  have h1 : "bwpreset".toList <:+: s :=
    List.IsInfix.trans ⟨[c, d], [], by simp⟩ hin
  rw [← contains_iff_infix, h] at h1
  cases h1

/-- C6 (as stated) fails: the preset file `.bwpreset` in the preset directory has a
non-empty file name, the pattern does not match its path, and the fallback
strips the whole file name, so `getPresetName` returns the empty string. -/
theorem getPresetName_empty_for_dot_bwpreset :
    filepath.Base (examplePresetDir ++ "/.bwpreset".toList) = ".bwpreset".toList
      ∧ filepath.Base (examplePresetDir ++ "/.bwpreset".toList) ≠ []
      ∧ getPresetName (examplePresetDir ++ "/.bwpreset".toList) = [] := by
  decide

/-- C7 (amended): for every path whose file name does not end in `.bwpreset` and in
which the pattern `([\w -]+).bwpreset` has no match (nowhere in the path is a
character of `[\w -]` followed by a character other than the line feed and then
`bwpreset`), `getPresetName` returns the base name of the path unchanged. -/
theorem getPresetName_fallback_base (s : Str)
    (hno : ∀ c d : Char, isPresetNameChar c = true → isAnyNotNL d = true →
      ¬ (c :: d :: "bwpreset".toList) <:+: s)
    (hsuf : strings.HasSuffix (filepath.Base s) ".bwpreset".toList = false) :
    getPresetName s = filepath.Base s := by
  have hf : findFirst presetNameRE.items s = none := by
    apply findFirst_none
    intro t ht
    cases hm : matchItems presetNameRE.items t with
    | none => rfl
    | some r =>
      exfalso
      obtain ⟨g, x, hg, hcls, hx, _, ht2⟩ := preset_match_sound t r hm
      obtain ⟨pre, hpre⟩ := ht
      refine hno (g.getLast hg) x (hcls _ (List.getLast_mem hg)) hx ⟨pre ++ g.dropLast, r.2, ?_⟩
      rw [← hpre, ht2]
      conv_rhs => rw [← List.dropLast_append_getLast hg]
      simp
  rw [getPresetName_of_no_match s hf]
  unfold strings.TrimSuffix
  rw [hsuf]
  rfl

/-- C7 (amended) on a path without `bwpreset`. -/
theorem getPresetName_fallback_base_witness :
    getPresetName "/Users/u/presets/Warm Kit.txt".toList = "Warm Kit.txt".toList :=
  (getPresetName_fallback_base "/Users/u/presets/Warm Kit.txt".toList
    (fun c d _ _ => no_match_of_no_bwpreset _ (by decide) c d) (by decide)).trans (by decide)

/-- C7 (as stated) fails: the file name `Warm Kit.bwpreset.bak` does not end in
`.bwpreset`, yet the pattern matches inside it and `getPresetName` returns `Warm Kit`,
not the base name. -/
theorem getPresetName_strips_inner_suffix :
    strings.HasSuffix (filepath.Base "/Users/u/presets/Warm Kit.bwpreset.bak".toList)
        ".bwpreset".toList = false
      ∧ filepath.Base "/Users/u/presets/Warm Kit.bwpreset.bak".toList =
          "Warm Kit.bwpreset.bak".toList
      ∧ getPresetName "/Users/u/presets/Warm Kit.bwpreset.bak".toList = "Warm Kit".toList := by
  decide

/-- C8 (amended): for every non-empty `n` made of characters of `[\w -]` that does not
begin with `bwpreset`, and every directory path `d` that does not contain `bwpreset`,
`getPresetName` of `d/n.bwpreset` is exactly `n`. -/
theorem getPresetName_of_preset_file (d n : Str) (hne : n ≠ [])
    (hn : ∀ c ∈ n, isPresetNameChar c = true)
    (hd : strings.Contains d "bwpreset".toList = false)
    (hnb : strings.HasPrefix n "bwpreset".toList = false) :
    getPresetName (d ++ '/' :: (n ++ ".bwpreset".toList)) = n := by
  have hd1 : ¬ "bwpreset".toList <:+: d := by
    rw [← contains_iff_infix, hd]
    simp
  have hnb1 : ¬ "bwpreset".toList <+: n := by
    intro hp
    have := List.isPrefixOf_iff_prefix.mpr hp
    unfold strings.HasPrefix at hnb
    rw [hnb] at this
    cases this
  have htail : ∀ rest : Str, n ++ ".bwpreset".toList ≠ "bwpreset".toList ++ rest := by
    intro rest he
    apply hnb1
    apply prefix_of_prefix_append_cons "bwpreset".toList n '.' "bwpreset".toList (by decide)
    exact ⟨rest, he.symm⟩
  have hskip : findFirst presetNameRE.items ((d ++ ['/']) ++ (n ++ ".bwpreset".toList)) =
      findFirst presetNameRE.items (n ++ ".bwpreset".toList) := by
    apply findFirst_skip
    intro u hu hsuf
    cases hm : matchItems presetNameRE.items (u ++ (n ++ ".bwpreset".toList)) with
    | none => rfl
    | some r =>
      exfalso
      obtain ⟨g, x, hg, hcls, hx, _, ht2⟩ := preset_match_sound _ r hm
      -- `u` is a suffix of `d` followed by the separator
      obtain ⟨v, hv, hvd⟩ : ∃ v, u = v ++ ['/'] ∧ v <:+ d := by
        obtain ⟨p, hp⟩ := hsuf
        rcases List.eq_nil_or_concat u with h0 | ⟨v, c, hvc⟩
        · exact absurd h0 hu
        · rw [List.concat_eq_append] at hvc
          rw [hvc] at hp
          have hp2 : (p ++ v) ++ [c] = d ++ ['/'] := by simpa using hp
          obtain ⟨e1, e2⟩ := List.append_inj' hp2 rfl
          simp only [List.cons.injEq, and_true] at e2
          subst e2
          exact ⟨v, hvc, ⟨p, e1⟩⟩
      subst hv
      have hE : v ++ ('/' :: (n ++ ".bwpreset".toList)) =
          g ++ (x :: ("bwpreset".toList ++ r.2)) := by
        rw [← ht2]
        simp
      rcases List.append_eq_append_iff.mp hE with ⟨a, ha1, ha2⟩ | ⟨c, hc1, hc2⟩
      · cases a with
        | nil =>
          simp only [List.nil_append, List.cons.injEq] at ha2
          exact htail _ ha2.2
        | cons y a =>
          simp only [List.cons_append, List.cons.injEq] at ha2
          have hy : isPresetNameChar '/' = true := by
            apply hcls
            rw [ha1, ha2.1]
            simp
          revert hy
          decide
      · cases c with
        | nil =>
          simp only [List.nil_append, List.cons.injEq] at hc2
          exact htail _ hc2.2.symm
        | cons y c =>
          simp only [List.cons_append, List.cons.injEq] at hc2
          have hpc : "bwpreset".toList <+: c :=
            prefix_of_prefix_append_cons "bwpreset".toList c '/' (n ++ ".bwpreset".toList)
              (by decide) ⟨r.2, hc2.2⟩
          apply hd1
          refine (hpc.isInfix.trans ?_).trans hvd.isInfix
          rw [hc1]
          exact ⟨g ++ [y], [], by simp⟩
  have hpath : d ++ '/' :: (n ++ ".bwpreset".toList) =
      (d ++ ['/']) ++ (n ++ ".bwpreset".toList) := by simp
  obtain ⟨r, hr, hgrp⟩ := preset_match_complete n [] hne hn
  have hfind : findFirst presetNameRE.items (n ++ ".bwpreset".toList) = some r.1 := by
    have hs : n ++ '.' :: ("bwpreset".toList ++ []) = n ++ ".bwpreset".toList := by simp
    rw [hs] at hr
    cases hn2 : n ++ ".bwpreset".toList with
    | nil => simp at hn2
    | cons c t =>
      rw [hn2] at hr
      simp only [findFirst, hr]
  rw [hpath, getPresetName_of_match _ r.1 (hskip.trans hfind), hgrp]

/-- C8 (amended) on `Warm Kit.bwpreset` in the preset directory. -/
theorem getPresetName_of_preset_file_witness :
    getPresetName (examplePresetDir ++ '/' :: ("Warm Kit".toList ++ ".bwpreset".toList)) =
      "Warm Kit".toList :=
  getPresetName_of_preset_file examplePresetDir "Warm Kit".toList (by decide) (by decide)
    (by decide) (by decide)

/-- C8 (as stated) fails: with the directory `/Users/u/old.bwpreset` the leftmost match
of the pattern lies in the directory part, and `getPresetName` of
`/Users/u/old.bwpreset/Warm Kit.bwpreset` is `old`, not `Warm Kit`. -/
theorem getPresetName_matches_in_directory :
    ("Warm Kit".toList ≠ [] ∧ ∀ c ∈ "Warm Kit".toList, isPresetNameChar c = true)
      ∧ getPresetName
          ("/Users/u/old.bwpreset".toList ++ '/' :: ("Warm Kit".toList ++ ".bwpreset".toList)) =
        "old".toList
      ∧ getPresetName
          ("/Users/u/old.bwpreset".toList ++ '/' :: ("Warm Kit".toList ++ ".bwpreset".toList)) ≠
        "Warm Kit".toList := by
  decide

/-! ## Facts about `path/filepath` -/

theorem split_ne_nil (sep : Char) : ∀ s : Str, strings.Split s sep ≠ [] := by
  intro s
  induction s with
  | nil => simp [strings.Split]
  | cons c s ih =>
    simp only [strings.Split]
    split
    · simp
    · split <;> simp

theorem split_append_sep (sep : Char) (b : Str) : ∀ a : Str,
    strings.Split (a ++ sep :: b) sep = strings.Split a sep ++ strings.Split b sep := by
  intro a
  induction a with
  | nil => simp [strings.Split]
  | cons c a ih =>
    rw [List.cons_append]
    simp only [strings.Split]
    split
    · rw [ih]
      simp
    · rw [ih]
      cases hs : strings.Split a sep with
      | nil => exact absurd hs (split_ne_nil sep a)
      | cons p r => simp

theorem split_no_sep (sep : Char) : ∀ s : Str, sep ∉ s → strings.Split s sep = [s] := by
  intro s
  induction s with
  | nil => intro _; simp [strings.Split]
  | cons c s ih =>
    intro h
    have hc : ¬ c = sep := fun e => h (by simp [e])
    have hs : sep ∉ s := fun hm => h (List.mem_cons_of_mem c hm)
    simp only [strings.Split, hc, if_false, ih hs]

theorem split_pieces_no_sep (sep : Char) : ∀ s : Str, ∀ p ∈ strings.Split s sep, sep ∉ p := by
  intro s
  induction s with
  | nil =>
    intro p hp
    simp [strings.Split] at hp
    simp [hp]
  | cons c s ih =>
    intro p hp
    simp only [strings.Split] at hp
    split at hp
    · rcases List.mem_cons.mp hp with h | h
      · simp [h]
      · exact ih p h
    · rename_i hc
      split at hp
      · simp only [List.mem_singleton] at hp
        rw [hp]
        simp only [List.mem_singleton]
        exact fun e => hc e.symm
      · rename_i piece rest hs
        rcases List.mem_cons.mp hp with h | h
        · rw [h]
          intro hm
          rcases List.mem_cons.mp hm with h1 | h1
          · exact hc h1.symm
          · exact ih piece (by rw [hs]; simp) h1
        · exact ih p (by rw [hs]; simp [h])

theorem intercalate_cons_cons (c d : Str) (rest : List Str) :
    "/".toList.intercalate (c :: d :: rest) = c ++ '/' :: "/".toList.intercalate (d :: rest) := by
  simp [List.intercalate, List.intersperse]

theorem intercalate_singleton (c : Str) : "/".toList.intercalate [c] = c := by
  simp [List.intercalate, List.intersperse]

theorem split_intercalate : ∀ cs : List Str, cs ≠ [] → (∀ c ∈ cs, '/' ∉ c) →
    strings.Split ("/".toList.intercalate cs) '/' = cs := by
  intro cs
  induction cs with
  | nil => intro h; exact absurd rfl h
  | cons c cs ih =>
    intro _ hall
    cases cs with
    | nil =>
      rw [intercalate_singleton]
      exact split_no_sep '/' c (hall c (by simp))
    | cons d cs =>
      rw [intercalate_cons_cons, split_append_sep, split_no_sep '/' c (hall c (by simp)),
        ih (by simp) (fun x hx => hall x (List.mem_cons_of_mem c hx))]
      simp

theorem elements_append_sep (a b : Str) :
    filepath.elements (a ++ '/' :: b) = filepath.elements a ++ filepath.elements b := by
  unfold filepath.elements
  rw [split_append_sep, List.filter_append]

theorem elements_good (b : Str) (h : goodElement b) : filepath.elements b = [b] := by
  obtain ⟨h1, h2, h3⟩ := h
  unfold filepath.elements
  rw [split_no_sep '/' b h2]
  have h3b : ¬ b = ['.'] := h3
  have : (!(b.isEmpty || b == ".".toList)) = true := by
    simp [List.isEmpty_iff, h1, h3b]
  rw [List.filter_cons, if_pos this]
  rfl

theorem elements_all_good (path : Str) : ∀ c ∈ filepath.elements path, goodElement c := by
  intro c hc
  unfold filepath.elements at hc
  obtain ⟨hmem, hp⟩ := List.mem_filter.mp hc
  have hsep := split_pieces_no_sep '/' path c hmem
  simp only [Bool.not_eq_true', Bool.or_eq_false_iff, List.isEmpty_eq_false, beq_eq_false_iff_ne,
    ne_eq] at hp
  exact ⟨hp.1, hsep, hp.2⟩

theorem canon_good (r : Bool) : ∀ st : List Str, CanonStack r st → ∀ c ∈ st, goodElement c := by
  intro st
  induction st with
  | nil => intro _ c hc; cases hc
  | cons top below ih =>
    intro h c hc
    rcases List.mem_cons.mp hc with h1 | h1
    · rw [h1]; exact h.1
    · exact ih h.2.1 c h1

theorem cleanStep_canon (r : Bool) (st : List Str) (c : Str) (hst : CanonStack r st)
    (hc : goodElement c) : CanonStack r (filepath.cleanStep r st c) := by
  unfold filepath.cleanStep
  split
  · rename_i hdd
    cases st with
    | nil =>
      cases r with
      | true => simp [CanonStack]
      | false =>
        simp only [Bool.false_eq_true, if_false]
        exact ⟨hc, trivial, fun _ => ⟨rfl, fun x hx => by cases hx⟩⟩
    | cons top below =>
      simp only
      split
      · rename_i htop
        cases r with
        | true => simpa using hst
        | false =>
          simp only [Bool.false_eq_true, if_false]
          refine ⟨hc, hst, fun _ => ⟨rfl, ?_⟩⟩
          intro x hx
          rcases List.mem_cons.mp hx with h1 | h1
          · rw [h1, htop]
          · exact (hst.2.2 htop).2 x h1
      · exact hst.2.1
  · rename_i hdd
    exact ⟨hc, hst, fun e => absurd e hdd⟩

theorem foldl_canon (r : Bool) : ∀ (cs st : List Str), CanonStack r st →
    (∀ c ∈ cs, goodElement c) → CanonStack r (cs.foldl (filepath.cleanStep r) st) := by
  intro cs
  induction cs with
  | nil => intro st h _; exact h
  | cons c cs ih =>
    intro st h hall
    simp only [List.foldl_cons]
    exact ih _ (cleanStep_canon r st c h (hall c (by simp)))
      (fun x hx => hall x (List.mem_cons_of_mem c hx))

theorem foldl_roundtrip (r : Bool) : ∀ st : List Str, CanonStack r st →
    st.reverse.foldl (filepath.cleanStep r) [] = st := by
  intro st
  induction st with
  | nil => intro _; rfl
  | cons top below ih =>
    intro h
    rw [List.reverse_cons, List.foldl_append, ih h.2.1]
    simp only [List.foldl_cons, List.foldl_nil]
    unfold filepath.cleanStep
    split
    · rename_i htop
      obtain ⟨hr, hall⟩ := h.2.2 htop
      cases below with
      | nil => simp [hr]
      | cons t b =>
        have ht : t = "..".toList := hall t (by simp)
        simp [ht, hr]
    · rfl

theorem render_rooted (st : List Str) :
    filepath.render true st = '/' :: "/".toList.intercalate st.reverse := by
  simp [filepath.render]

theorem render_relative_nil : filepath.render false [] = ".".toList := by
  decide

theorem intercalate_ne_nil (c : Str) (cs : List Str) (hc : c ≠ []) :
    "/".toList.intercalate (c :: cs) ≠ [] := by
  cases cs with
  | nil => rw [intercalate_singleton]; exact hc
  | cons d cs =>
    rw [intercalate_cons_cons]
    cases c with
    | nil => exact absurd rfl hc
    | cons x c => simp

theorem intercalate_head (c : Str) (cs : List Str) (hc : c ≠ []) :
    ("/".toList.intercalate (c :: cs)).head? = c.head? := by
  cases c with
  | nil => exact absurd rfl hc
  | cons x c =>
    cases cs with
    | nil => rw [intercalate_singleton]
    | cons d cs => rw [intercalate_cons_cons]; rfl

theorem render_relative (st : List Str) (hne : st ≠ []) (hgood : ∀ c ∈ st, goodElement c) :
    filepath.render false st = "/".toList.intercalate st.reverse := by
  have hrev : st.reverse ≠ [] := by simpa using hne
  obtain ⟨c, cs, hcs⟩ := List.exists_cons_of_ne_nil hrev
  have hc : c ≠ [] := (hgood c (by
    have : c ∈ st.reverse := by rw [hcs]; simp
    simpa using this)).1
  have hbody := intercalate_ne_nil c cs hc
  unfold filepath.render
  simp only [Bool.false_eq_true, if_false, hcs]
  rw [if_neg]
  simpa [List.isEmpty_iff] using hbody

theorem filter_good (cs : List Str) (h : ∀ c ∈ cs, goodElement c) :
    cs.filter (fun c => !(c.isEmpty || c == ".".toList)) = cs := by
  rw [List.filter_eq_self]
  intro c hc
  obtain ⟨h1, _, h3⟩ := h c hc
  have h3b : ¬ c = ['.'] := h3
  simp [List.isEmpty_iff, h1, h3b]

theorem elements_intercalate (cs : List Str) (h : ∀ c ∈ cs, goodElement c) :
    filepath.elements ("/".toList.intercalate cs) = cs := by
  cases cs with
  | nil => decide
  | cons c cs =>
    unfold filepath.elements
    rw [split_intercalate (c :: cs) (by simp) (fun x hx => (h x hx).2.1)]
    exact filter_good _ h

theorem elements_render (r : Bool) (st : List Str) (h : ∀ c ∈ st, goodElement c) :
    filepath.elements (filepath.render r st) = st.reverse := by
  have hrev : ∀ c ∈ st.reverse, goodElement c := fun c hc => h c (by simpa using hc)
  cases r with
  | true =>
    rw [render_rooted]
    have : '/' :: "/".toList.intercalate st.reverse = [] ++ '/' :: "/".toList.intercalate st.reverse :=
      rfl
    rw [this, elements_append_sep, elements_intercalate _ hrev]
    rfl
  | false =>
    cases st with
    | nil => decide
    | cons c st =>
      rw [render_relative _ (by simp) h, elements_intercalate _ hrev]

theorem isRooted_render (r : Bool) (st : List Str) (h : ∀ c ∈ st, goodElement c) :
    filepath.isRooted (filepath.render r st) = r := by
  cases r with
  | true => rw [render_rooted]; rfl
  | false =>
    cases hst : st with
    | nil => decide
    | cons c0 st0 =>
      rw [← hst]
      have hne : st ≠ [] := by rw [hst]; simp
      rw [render_relative _ hne h]
      have hrev : st.reverse ≠ [] := by simpa using hne
      obtain ⟨c, cs, hcs⟩ := List.exists_cons_of_ne_nil hrev
      have hcg : goodElement c := h c (by
        have : c ∈ st.reverse := by rw [hcs]; simp
        simpa using this)
      unfold filepath.isRooted
      rw [hcs, intercalate_head c cs hcg.1]
      cases c with
      | nil => exact absurd rfl hcg.1
      | cons x c =>
        have hx : x ≠ '/' := fun e => hcg.2.1 (by simp [e])
        simp [hx]

theorem clean_render (r : Bool) (st : List Str) (h : CanonStack r st) :
    filepath.Clean (filepath.render r st) = filepath.render r st := by
  have hg := canon_good r st h
  unfold filepath.Clean filepath.cleanStack
  rw [isRooted_render r st hg, elements_render r st hg, foldl_roundtrip r st h]

theorem clean_canon (path : Str) :
    CanonStack (filepath.isRooted path) (filepath.cleanStack path) :=
  foldl_canon _ _ _ trivial (elements_all_good path)

theorem clean_idempotent (path : Str) :
    filepath.Clean (filepath.Clean path) = filepath.Clean path := by
  exact clean_render _ _ (clean_canon path)

theorem render_injective (r : Bool) (st st2 : List Str) (h : ∀ c ∈ st, goodElement c)
    (h2 : ∀ c ∈ st2, goodElement c) (he : filepath.render r st = filepath.render r st2) :
    st = st2 := by
  have := elements_render r st h
  rw [he, elements_render r st2 h2] at this
  exact List.reverse_injective this.symm
theorem join_two (dir b : Str) (hdir : dir ≠ []) :
    filepath.Join [dir, b] = filepath.Clean (dir ++ '/' :: b) := by
  cases dir with
  | nil => exact absurd rfl hdir
  | cons c dir =>
    simp [filepath.Join, List.dropWhile, List.intercalate, List.intersperse]

theorem join_export (name x : Str) :
    filepath.Join ["export".toList, name, x] =
      filepath.Clean (("export".toList ++ '/' :: name) ++ '/' :: x) := by
  simp [filepath.Join, List.dropWhile, List.intercalate, List.intersperse]

theorem isRooted_append (a b : Str) (ha : a ≠ []) :
    filepath.isRooted (a ++ b) = filepath.isRooted a := by
  cases a with
  | nil => exact absurd rfl ha
  | cons c a => rfl

theorem proper_good (b : Str) (h : properName b) : goodElement b := ⟨h.1, h.2.1, h.2.2.1⟩

theorem cleanStack_append_name (a b : Str) (ha : a ≠ []) (hb : properName b) :
    filepath.cleanStack (a ++ '/' :: b) = b :: filepath.cleanStack a := by
  unfold filepath.cleanStack
  rw [isRooted_append a _ ha, elements_append_sep, elements_good b (proper_good b hb),
    List.foldl_append]
  simp only [List.foldl_cons, List.foldl_nil]
  unfold filepath.cleanStep
  rw [if_neg hb.2.2.2]

theorem canon_of_proper (r : Bool) : ∀ st : List Str, (∀ c ∈ st, properName c) →
    CanonStack r st := by
  intro st
  induction st with
  | nil => intro _; trivial
  | cons c st ih =>
    intro h
    exact ⟨proper_good c (h c (by simp)), ih (fun x hx => h x (List.mem_cons_of_mem c hx)),
      fun e => absurd e (h c (by simp)).2.2.2⟩

theorem clean_proper (c : Str) (cs : List Str) (h : ∀ x ∈ c :: cs, properName x) :
    filepath.Clean ("/".toList.intercalate (c :: cs)) = "/".toList.intercalate (c :: cs) := by
  have hrev : ∀ x ∈ (c :: cs).reverse, properName x := fun x hx => h x (List.mem_reverse.mp hx)
  have hcanon := canon_of_proper false (c :: cs).reverse hrev
  have hr : filepath.render false (c :: cs).reverse = "/".toList.intercalate (c :: cs) := by
    rw [render_relative _ (by simp) (canon_good _ _ hcanon), List.reverse_reverse]
  rw [← hr]
  exact clean_render false _ hcanon

theorem join_proper (name cat base : Str) (hname : properName name) (hcat : properName cat)
    (hbase : properName base) :
    filepath.Join [filepath.Join ["export".toList, name, cat], base] =
      "export/".toList ++ name ++ '/' :: cat ++ '/' :: base := by
  have hexp : properName "export".toList := by decide
  have h3 : filepath.Join ["export".toList, name, cat] =
      "/".toList.intercalate ["export".toList, name, cat] := by
    have := clean_proper "export".toList [name, cat] (by
      intro x hx
      simp only [List.mem_cons, List.mem_singleton, List.not_mem_nil, or_false] at hx
      rcases hx with h | h | h <;> rw [h] <;> assumption)
    rw [← this]
    simp [filepath.Join, List.dropWhile]
  have hne : "/".toList.intercalate ["export".toList, name, cat] ≠ [] :=
    intercalate_ne_nil _ _ (by decide)
  rw [h3, join_two _ _ hne]
  have h4 : "/".toList.intercalate ["export".toList, name, cat] ++ '/' :: base =
      "/".toList.intercalate ["export".toList, name, cat, base] := by
    simp [List.intercalate, List.intersperse]
  rw [h4, clean_proper "export".toList [name, cat, base] (by
      intro x hx
      simp only [List.mem_cons, List.mem_singleton, List.not_mem_nil, or_false] at hx
      rcases hx with h | h | h | h <;> rw [h] <;> assumption)]
  simp [List.intercalate, List.intersperse]

theorem processSample_eq {σ : Type} (copy : CopyFn σ) (name samplePath typ vel : Str) (st : σ) :
    processSample copy name samplePath typ vel st =
      match copy samplePath (filepath.Join
          [filepath.Join ["export".toList, name, categoryOf samplePath vel],
            filepath.Base samplePath]) st with
      | (some e, st1) => (some e, st1)
      | (none, st1) =>
        copy samplePath (filepath.Join
          [filepath.Join ["export".toList, name, "all".toList], filepath.Base samplePath]) st1 := by
  unfold processSample categoryOf getDestFilePath
  cases hrim : strings.Contains samplePath "Rim".toList
  · simp only [Bool.false_eq_true, if_false]
    split
    · rfl
    · split <;> simp_all
  · simp only [if_true]
    split
    · rfl
    · split <;> simp_all

/-- C3: for every preset name, sample type, velocity label and sample path that
contains `Rim`, `processSample` copies the sample to
`export/<name>/rim/<base name>` and, when that succeeds, to
`export/<name>/all/<base name>`; the velocity label and the sample type play no
part, and for a preset name and a base name that are plain file names the two
destinations are literally these strings. -/
theorem processSample_rim_destination {σ : Type} (copy : CopyFn σ)
    (name samplePath typ vel : Str) (st : σ)
    (hrim : strings.Contains samplePath "Rim".toList = true) :
    processSample copy name samplePath typ vel st =
        (match copy samplePath (filepath.Join
            [filepath.Join ["export".toList, name, "rim".toList], filepath.Base samplePath]) st with
          | (some e, st1) => (some e, st1)
          | (none, st1) =>
            copy samplePath (filepath.Join
              [filepath.Join ["export".toList, name, "all".toList], filepath.Base samplePath]) st1)
      ∧ (∀ typ2 vel2 : Str, processSample copy name samplePath typ2 vel2 st =
          processSample copy name samplePath typ vel st)
      ∧ (processSample (recordCopy (fun _ _ _ => none)) name samplePath typ vel []).2 =
          [(samplePath, filepath.Join
              [filepath.Join ["export".toList, name, "rim".toList], filepath.Base samplePath]),
            (samplePath, filepath.Join
              [filepath.Join ["export".toList, name, "all".toList], filepath.Base samplePath])]
      ∧ (properName name → properName (filepath.Base samplePath) →
          filepath.Join
              [filepath.Join ["export".toList, name, "rim".toList], filepath.Base samplePath] =
            "export/".toList ++ name ++ "/rim/".toList ++ filepath.Base samplePath
          ∧ filepath.Join
              [filepath.Join ["export".toList, name, "all".toList], filepath.Base samplePath] =
            "export/".toList ++ name ++ "/all/".toList ++ filepath.Base samplePath) := by
  have hcat : ∀ v : Str, categoryOf samplePath v = "rim".toList := by
    intro v
    unfold categoryOf
    rw [hrim]
    rfl
  have heq : ∀ (τ : Type) (cp : CopyFn τ) (t v : Str) (s : τ),
      processSample cp name samplePath t v s =
        (match cp samplePath (filepath.Join
            [filepath.Join ["export".toList, name, "rim".toList], filepath.Base samplePath]) s with
          | (some e, st1) => (some e, st1)
          | (none, st1) =>
            cp samplePath (filepath.Join
              [filepath.Join ["export".toList, name, "all".toList], filepath.Base samplePath])
              st1) := by
    intro τ cp t v s
    rw [processSample_eq, hcat]
  refine ⟨heq σ copy typ vel st, ?_, ?_, ?_⟩
  · intro typ2 vel2
    rw [heq σ copy typ2 vel2 st, heq σ copy typ vel st]
  · rw [heq]
    rfl
  · intro hname hbase
    constructor
    · rw [join_proper name "rim".toList _ hname (by decide) hbase]
      simp
    · rw [join_proper name "all".toList _ hname (by decide) hbase]
      simp

/-- C3 on the rim shot of the example: both destinations, whatever the velocity. -/
theorem processSample_rim_destination_witness :
    (processSample (recordCopy (fun _ _ _ => none)) "MyKit".toList
        "/lib/Snare/Rim Shot 1.wav".toList "Snare".toList "v5".toList []).2 =
      [("/lib/Snare/Rim Shot 1.wav".toList, "export/MyKit/rim/Rim Shot 1.wav".toList),
        ("/lib/Snare/Rim Shot 1.wav".toList, "export/MyKit/all/Rim Shot 1.wav".toList)] :=
  (processSample_rim_destination (recordCopy (fun _ _ _ => none)) "MyKit".toList
    "/lib/Snare/Rim Shot 1.wav".toList "Snare".toList "v5".toList [] (by decide)).2.2.1.trans
    (by decide)

theorem processSample_record (outcome : List (Str × Str) → Str → Str → Option Err)
    (name samplePath typ vel : Str) (calls : List (Str × Str)) :
    processSample (recordCopy outcome) name samplePath typ vel calls =
      match outcome calls samplePath (categoryDest name samplePath vel) with
      | some e => (some e, calls ++ [(samplePath, categoryDest name samplePath vel)])
      | none =>
        (outcome (calls ++ [(samplePath, categoryDest name samplePath vel)]) samplePath
            (allDest name samplePath),
          calls ++ [(samplePath, categoryDest name samplePath vel),
            (samplePath, allDest name samplePath)]) := by
  rw [processSample_eq]
  unfold recordCopy categoryDest allDest
  cases h : outcome calls samplePath (filepath.Join
      [filepath.Join ["export".toList, name, categoryOf samplePath vel],
        filepath.Base samplePath]) with
  | some e => rfl
  | none => simp

/-- C15: `processSample` is fail-fast.  Over any copy operation its result is the
failed category copy (same error, the state that copy left) or else the result
of the `all` copy made after it; the calls it makes are the category copy alone
when that copy returns an error, and the category copy followed by the `all`
copy exactly when the category copy succeeded. -/
theorem processSample_fail_fast {σ : Type} (copy : CopyFn σ)
    (outcome : List (Str × Str) → Str → Str → Option Err)
    (name samplePath typ vel : Str) (st : σ) (calls : List (Str × Str)) :
    processSample copy name samplePath typ vel st =
        (match copy samplePath (categoryDest name samplePath vel) st with
          | (some e, st1) => (some e, st1)
          | (none, st1) => copy samplePath (allDest name samplePath) st1)
      ∧ (processSample (recordCopy outcome) name samplePath typ vel calls).1 =
        (match outcome calls samplePath (categoryDest name samplePath vel) with
          | some e => some e
          | none =>
            outcome (calls ++ [(samplePath, categoryDest name samplePath vel)]) samplePath
              (allDest name samplePath))
      ∧ (processSample (recordCopy outcome) name samplePath typ vel calls).2 =
        calls ++
          (if (outcome calls samplePath (categoryDest name samplePath vel)).isSome
            then [(samplePath, categoryDest name samplePath vel)]
            else [(samplePath, categoryDest name samplePath vel),
              (samplePath, allDest name samplePath)]) := by
  refine ⟨processSample_eq copy name samplePath typ vel st, ?_, ?_⟩
  · rw [processSample_record]
    cases outcome calls samplePath (categoryDest name samplePath vel) <;> rfl
  · rw [processSample_record]
    cases outcome calls samplePath (categoryDest name samplePath vel) <;> rfl

theorem processPresetLoop_state {σ : Type} (copy : CopyFn σ) (name baseSamplePath : Str) :
    ∀ (samples : List Str) (st : σ),
      (processPresetLoop copy name baseSamplePath samples st).2 =
        samples.foldl (fun acc s =>
          (processSample copy name (filepath.Join [baseSamplePath, s]) (getSampleType s)
            (getSampleVelocity s) acc).2) st := by
  intro samples
  induction samples with
  | nil => intro st; rfl
  | cons s rest ih =>
    intro st
    simp only [processPresetLoop, List.foldl_cons]
    exact ih _

theorem processPresetLoop_attempts (outcome : List (Str × Str) → Str → Str → Option Err)
    (name baseSamplePath : Str) : ∀ (samples : List Str) (calls : List (Str × Str)),
      ∃ blocks : List (List (Str × Str)),
        (processPresetLoop (recordCopy outcome) name baseSamplePath samples calls).2 =
            calls ++ blocks.flatten
          ∧ List.Forall₂ (AttemptOf name baseSamplePath) samples blocks := by
  intro samples
  induction samples with
  | nil =>
    intro calls
    exact ⟨[], by simp [processPresetLoop], List.Forall₂.nil⟩
  | cons s rest ih =>
    intro calls
    simp only [processPresetLoop]
    rw [processSample_record]
    cases h : outcome calls (filepath.Join [baseSamplePath, s])
        (categoryDest name (filepath.Join [baseSamplePath, s]) (getSampleVelocity s)) with
    | some e =>
      obtain ⟨blocks, hb, hf⟩ := ih (calls ++ [(filepath.Join [baseSamplePath, s],
        categoryDest name (filepath.Join [baseSamplePath, s]) (getSampleVelocity s))])
      refine ⟨_ :: blocks, ?_, List.Forall₂.cons (Or.inl rfl) hf⟩
      simp only
      rw [hb]
      simp
    | none =>
      obtain ⟨blocks, hb, hf⟩ := ih (calls ++ [(filepath.Join [baseSamplePath, s],
          categoryDest name (filepath.Join [baseSamplePath, s]) (getSampleVelocity s)),
        (filepath.Join [baseSamplePath, s], allDest name (filepath.Join [baseSamplePath, s]))])
      refine ⟨_ :: blocks, ?_, List.Forall₂.cons (Or.inr rfl) hf⟩
      simp only
      rw [hb]
      simp

/-- C11: per-sample failures are non-fatal.  `processPreset` returns no error; its
final state is reached by running `processSample` on every reference of the list,
in list order, each from the state the previous one left, whatever that one
returned; and whatever the outcomes of the individual copies, the copies
attempted are, reference by reference in list order, the category copy of that
reference, followed or not by its `all` copy. -/
theorem processPreset_non_fatal {σ : Type} (copy : CopyFn σ)
    (outcome : List (Str × Str) → Str → Str → Option Err)
    (name baseSamplePath : Str) (samples : List Str) (st : σ) (calls : List (Str × Str)) :
    (processPreset copy name baseSamplePath samples st).1 = none
      ∧ (processPreset copy name baseSamplePath samples st).2.2 =
        samples.foldl (fun acc s =>
          (processSample copy name (filepath.Join [baseSamplePath, s]) (getSampleType s)
            (getSampleVelocity s) acc).2) st
      ∧ (processPreset (recordCopy outcome) name baseSamplePath samples calls).1 = none
      ∧ ∃ blocks : List (List (Str × Str)),
          (processPreset (recordCopy outcome) name baseSamplePath samples calls).2.2 =
              calls ++ blocks.flatten
            ∧ List.Forall₂ (AttemptOf name baseSamplePath) samples blocks := by
  refine ⟨rfl, processPresetLoop_state copy name baseSamplePath samples st, rfl, ?_⟩
  exact processPresetLoop_attempts outcome name baseSamplePath samples calls

/-- C11 on two references where the copy of the first fails: no error is
returned, one error line is logged, and both copies of the second reference
are still made. -/
theorem processPreset_non_fatal_witness :
    (processPreset (recordCopy firstCopyFails) "MyKit".toList "/lib".toList
        ["Bitwig/Kick 1 v5.wav".toList, "Bitwig/Snare 2 v3.wav".toList] []).1 = none
      ∧ processPreset (recordCopy firstCopyFails) "MyKit".toList "/lib".toList
          ["Bitwig/Kick 1 v5.wav".toList, "Bitwig/Snare 2 v3.wav".toList] [] =
        (none,
          ["failed to process sample 'Bitwig/Kick 1 v5.wav' for preset 'MyKit': disk full".toList],
          [("/lib/Bitwig/Kick 1 v5.wav".toList, "export/MyKit/v5/Kick 1 v5.wav".toList),
            ("/lib/Bitwig/Snare 2 v3.wav".toList, "export/MyKit/v3/Snare 2 v3.wav".toList),
            ("/lib/Bitwig/Snare 2 v3.wav".toList, "export/MyKit/all/Snare 2 v3.wav".toList)]) :=
  ⟨(processPreset_non_fatal (recordCopy firstCopyFails) firstCopyFails "MyKit".toList
      "/lib".toList ["Bitwig/Kick 1 v5.wav".toList, "Bitwig/Snare 2 v3.wav".toList] [] []).1,
    by decide⟩

/-- C15 on the example where the category copy fails: the error comes back and
only that one copy was attempted. -/
theorem processSample_fail_fast_witness :
    processSample (recordCopy firstCopyFails) "MyKit".toList "/lib/Bitwig/Kick 1 v5.wav".toList
        "Kick".toList "v5".toList [] =
      (some "disk full".toList,
        [("/lib/Bitwig/Kick 1 v5.wav".toList, "export/MyKit/v5/Kick 1 v5.wav".toList)]) := by
  have h := processSample_fail_fast (recordCopy firstCopyFails) firstCopyFails "MyKit".toList
    "/lib/Bitwig/Kick 1 v5.wav".toList "Kick".toList "v5".toList [] []
  exact Prod.ext (h.2.1.trans (by decide)) (h.2.2.trans (by decide))

/-- C12: over any file-system state, when the source does not exist (`os.Stat`
returns an error) `copySampleFile` returns that error, and when the source exists
but is not a regular file it returns the error `<src> is not a regular file`; in
both cases the file system is left exactly as it was, so nothing has been
created. -/
theorem copySampleFile_rejects_source {σ : Type} (os : OS σ) (src dest : Str) (st : σ)
    (hsrc : ∀ info, os.stat st src = Except.ok info → info.isRegular = false) :
    (copySampleFile os src dest st).1 ≠ none
      ∧ (copySampleFile os src dest st).2 = st
      ∧ (∀ e, os.stat st src = Except.error e → copySampleFile os src dest st = (some e, st))
      ∧ (∀ info, os.stat st src = Except.ok info →
          copySampleFile os src dest st = (some (src ++ " is not a regular file".toList), st)) := by
  cases hs : os.stat st src with
  | error e =>
    have h : copySampleFile os src dest st = (some e, st) := by
      unfold copySampleFile
      rw [hs]
    refine ⟨by rw [h]; simp, by rw [h], ?_, ?_⟩
    · intro e2 he2
      cases he2
      exact h
    · intro info hi
      cases hi
  | ok info =>
    have hreg := hsrc info hs
    have h : copySampleFile os src dest st =
        (some (src ++ " is not a regular file".toList), st) := by
      unfold copySampleFile
      rw [hs]
      simp [hreg]
    refine ⟨by rw [h]; simp, by rw [h], ?_, ?_⟩
    · intro e2 he2
      cases he2
    · intro info2 _
      exact h

/-- C12 on the example file system: a missing source and a directory as source
are both rejected and the destination does not come into existence. -/
theorem copySampleFile_rejects_source_witness :
    (copySampleFile toyOS "/lib/Snare/Missing.wav".toList
        "export/MyKit/v5/Missing.wav".toList toyWithDirectory =
      (some "no such file or directory".toList, toyWithDirectory))
      ∧ (copySampleFile toyOS "/lib/Snare".toList "export/MyKit/v5/Snare".toList
          toyWithDirectory =
        (some "/lib/Snare is not a regular file".toList, toyWithDirectory))
      ∧ toyLookup (copySampleFile toyOS "/lib/Snare".toList "export/MyKit/v5/Snare".toList
          toyWithDirectory).2 "export/MyKit/v5".toList = none := by
  have h1 : toyOS.stat toyWithDirectory "/lib/Snare/Missing.wav".toList =
      Except.error "no such file or directory".toList := rfl
  have h2 : toyOS.stat toyWithDirectory "/lib/Snare".toList =
      Except.ok { isRegular := false } := rfl
  refine ⟨?_, ?_, by decide⟩
  · exact (copySampleFile_rejects_source toyOS "/lib/Snare/Missing.wav".toList
      "export/MyKit/v5/Missing.wav".toList toyWithDirectory
      (fun info h => by rw [h1] at h; cases h)).2.2.1 _ h1
  · exact (copySampleFile_rejects_source toyOS "/lib/Snare".toList
      "export/MyKit/v5/Snare".toList toyWithDirectory
      (fun info h => by rw [h2] at h; cases h; rfl)).2.2.2 _ h2

/-! ## Shape of the extracted references -/

theorem clean_bitwig (rest : Str) :
    cleanBwPresetSampleText ("Bitwig".toList ++ rest) =
      "Bitwig".toList ++ strings.replaceGo libraryMarker [] 1 0 rest := by
  have hs : "Bitwig".toList ++ rest = 'B' :: 'i' :: 't' :: 'w' :: 'i' :: 'g' :: rest := by simp
  have hm : libraryMarker = ':' :: "7/samples".toList := rfl
  rw [hs]
  unfold cleanBwPresetSampleText strings.Replace
  rw [hm]
  simp [strings.replaceGo, List.isPrefixOf]

theorem replaceGo_mid_wav : ∀ mid : Str, '.' ∉ mid →
    ∃ mid2 : Str, strings.replaceGo libraryMarker [] 1 0 (mid ++ ".wav".toList) =
        mid2 ++ ".wav".toList ∧ ∀ c ∈ mid2, c ∈ mid := by
  intro mid
  induction mid with
  | nil =>
    intro _
    exact ⟨[], by decide, fun c hc => by cases hc⟩
  | cons c m ih =>
    intro hdot
    have hm : '.' ∉ m := fun h => hdot (List.mem_cons_of_mem c h)
    rw [List.cons_append]
    rw [strings.replaceGo]
    split
    · rename_i hp
      have hpre : libraryMarker <+: (c :: m) ++ '.' :: "wav".toList := by
        have := List.isPrefixOf_iff_prefix.mp hp
        simpa using this
      have hpre2 : libraryMarker <+: c :: m :=
        prefix_of_prefix_append_cons libraryMarker (c :: m) '.' "wav".toList (by decide) hpre
      obtain ⟨t, ht⟩ := hpre2
      have hm2 : m = "7/samples".toList ++ t := by
        have h1 : ':' :: ("7/samples".toList ++ t) = c :: m := ht
        simp only [List.cons.injEq] at h1
        exact h1.2.symm
      refine ⟨t, ?_, ?_⟩
      · rw [replaceGo_zero, hm2]
        simp [libraryMarker]
      · intro x hx
        rw [hm2]
        simp [hx]
    · obtain ⟨mid2, h1, h2⟩ := ih hm
      refine ⟨c :: mid2, ?_, ?_⟩
      · rw [h1]
        rfl
      · intro x hx
        rcases List.mem_cons.mp hx with h | h
        · rw [h]; simp
        · exact List.mem_cons_of_mem c (h2 x h)

theorem split_piece_sublist (sep : Char) : ∀ s : Str, ∀ p ∈ strings.Split s sep,
    List.Sublist p s := by
  intro s
  induction s with
  | nil =>
    intro p hp
    simp [strings.Split] at hp
    rw [hp]
  | cons c s ih =>
    intro p hp
    simp only [strings.Split] at hp
    split at hp
    · rcases List.mem_cons.mp hp with h | h
      · rw [h]; exact List.nil_sublist _
      · exact (ih p h).cons c
    · split at hp
      · rename_i hnil
        exact absurd hnil (split_ne_nil sep s)
      · rename_i piece rest hs
        rcases List.mem_cons.mp hp with h | h
        · rw [h]
          exact (ih piece (by rw [hs]; simp)).cons₂ c
        · exact (ih p (by rw [hs]; simp [h])).cons c

theorem clean_wav_ref (m : Str) (h : IsWavRef m) :
    ∃ mid : Str, cleanBwPresetSampleText m = "Bitwig".toList ++ mid ++ ".wav".toList ∧
      ∀ c ∈ mid, isWavPathChar c = true := by
  obtain ⟨mid0, hm, _, hcls⟩ := h
  have hdot : '.' ∉ mid0 := by
    intro hd
    have := hcls '.' hd
    revert this
    decide
  obtain ⟨mid, h1, h2⟩ := replaceGo_mid_wav mid0 hdot
  refine ⟨mid, ?_, fun c hc => hcls c (h2 c hc)⟩
  rw [hm, List.append_assoc, clean_bitwig, h1, List.append_assoc]

/-- C13: every reference returned by `scanFileForSamples` is `Bitwig`, then characters
of the class of the pattern only (ASCII letters, digits, white space, `/`, `:`,
`-`, `'`), then `.wav`; it contains exactly one `.`, hence no `..` anywhere and no
`..` path segment. -/
theorem scanFileForSamples_reference_shape (openScan : Str → Except Err ScannedFile)
    (path : Str) (refs : List Str)
    (h : scanFileForSamples openScan path = Except.ok refs) :
    ∀ r ∈ refs,
      (∃ mid : Str, r = "Bitwig".toList ++ mid ++ ".wav".toList ∧
          ∀ c ∈ mid, isWavPathChar c = true)
        ∧ r.count '.' = 1
        ∧ ¬ "..".toList <:+: r
        ∧ ∀ seg ∈ strings.Split r '/', seg ≠ "..".toList := by
  intro r hr
  have hrefs : ∃ f : ScannedFile, refs = f.lines.filterMap
      (fun line => (wavInFolderRE.FindAllString line).getLast?.map cleanBwPresetSampleText) := by
    unfold scanFileForSamples at h
    split at h
    · cases h
    · rename_i f _
      simp only at h
      split at h
      · cases h
      · simp only [Except.ok.injEq] at h
        exact ⟨f, by rw [← h, scanLines_eq]; rfl⟩
  obtain ⟨f, hf⟩ := hrefs
  rw [hf] at hr
  obtain ⟨line, _, hline⟩ := List.mem_filterMap.mp hr
  obtain ⟨last, hlast, hclean⟩ := Option.map_eq_some'.mp hline
  have hmem : last ∈ wavInFolderRE.FindAllString line := List.mem_of_getLast?_eq_some hlast
  obtain ⟨t, res, _, hres, hmr⟩ := findAllFrom_mem _ _ _ _ hmem
  have hwav : IsWavRef last := by
    rw [hmr]
    exact (wav_match_sound t res hres).2
  obtain ⟨mid, hshape, hcls⟩ := clean_wav_ref last hwav
  rw [hclean] at hshape
  have hdot : '.' ∉ mid := by
    intro hd
    have := hcls '.' hd
    revert this
    decide
  have hcount : r.count '.' = 1 := by
    rw [hshape, List.count_append, List.count_append, List.count_eq_zero_of_not_mem hdot]
    decide
  refine ⟨⟨mid, hshape, hcls⟩, hcount, ?_, ?_⟩
  · intro hin
    have := hin.sublist.count_le '.'
    rw [hcount] at this
    revert this
    decide
  · intro seg hseg heq
    have := (split_piece_sublist '/' r seg hseg).count_le '.'
    rw [hcount, heq] at this
    revert this
    decide

/-- C13 on the three-line example document. -/
theorem scanFileForSamples_reference_shape_witness :
    "Bitwig/Kit/Kick 1.wav".toList.count '.' = 1
      ∧ ¬ "..".toList <:+: "Bitwig/Kit/Kick 1.wav".toList :=
  have h := scanFileForSamples_reference_shape exampleScan "kit.bwpreset".toList
    ["Bitwig/Kit/Kick 1.wav".toList, "Bitwig/Snare/Rim 2.wav".toList]
    (congrArg Except.ok (by decide)) "Bitwig/Kit/Kick 1.wav".toList (by decide)
  ⟨h.2.1, h.2.2.1⟩

/-! ## Facts about `getSampleVelocity` -/

theorem findFirst_ne_none (items : List Item) : ∀ (s t : Str) (r : List Str × Str),
    t <:+ s → matchItems items t = some r → findFirst items s ≠ none := by
  intro s
  induction s with
  | nil =>
    intro t r hsuf hm
    have ht : t = [] := List.suffix_nil.mp hsuf
    subst ht
    simp [findFirst, hm]
  | cons c s ih =>
    intro t r hsuf hm
    simp only [findFirst]
    split
    · simp
    · rename_i hnone
      rcases List.suffix_cons_iff.mp hsuf with h | h
      · subst h
        rw [hm] at hnone
        cases hnone
      · exact ih t r h hm

theorem velocityRE_items : velocityRE.items =
    [Item.rep isAlnum 1 (some 2), Item.one isAnyNotNL,
      Item.one (fun d => d == 'w'), Item.one (fun d => d == 'a'),
      Item.one (fun d => d == 'v')] := rfl

theorem velocity_match_sound (t : Str) (r : List Str × Str)
    (h : matchItems velocityRE.items t = some r) :
    1 ≤ ((r.1.take 1).flatten).length ∧ ((r.1.take 1).flatten).length ≤ 2 ∧
      ∀ c ∈ (r.1.take 1).flatten, isAlnum c = true := by
  obtain ⟨_, h2⟩ := matchItems_sound _ _ _ h
  rw [velocityRE_items] at h2
  simp only [List.forall₂_cons_left_iff, List.forall₂_nil_left_iff, ItemOK] at h2
  obtain ⟨g, _, ⟨hg, hlo, hhi⟩, ⟨_, _, _, ⟨_, _, _, ⟨_, _, _, ⟨_, _, _, rfl, rfl⟩, rfl⟩, rfl⟩,
    rfl⟩, hr⟩ := h2
  rw [hr]
  simp only [List.take_succ_cons, List.take_zero, List.flatten_cons, List.flatten_nil,
    List.append_nil]
  exact ⟨hlo, hhi 2 rfl, hg⟩

theorem velocity_match_at_end (c : Char) (hc : isAlnum c = true) :
    ∃ r, matchItems velocityRE.items (c :: ".wav".toList) = some r := by
  have hs : c :: ".wav".toList = c :: '.' :: 'w' :: 'a' :: 'v' :: [] := rfl
  have htw : (c :: '.' :: 'w' :: 'a' :: 'v' :: []).takeWhile isAlnum = [c] := by
    rw [List.takeWhile_cons_of_pos hc, List.takeWhile_cons_of_neg (by decide)]
  have hk : min 2 ([c].length) = 1 := rfl
  rw [hs, velocityRE_items]
  simp only [matchItems, maxRun, htw, hk]
  refine ⟨([c] :: [['.'], ['w'], ['a'], ['v']], []), ?_⟩
  apply firstDown_top _ 1 1 _ (le_refl 1)
  simp [matchItems]
  decide

theorem getSampleVelocity_of_match (s : Str) (segs : List Str)
    (h : findFirst velocityRE.items s = some segs) :
    getSampleVelocity s = (segs.take 1).flatten := by
  unfold getSampleVelocity Regexp.FindStringSubmatch
  rw [h]
  simp [velocityRE]

theorem getSampleVelocity_of_no_match (s : Str) (h : findFirst velocityRE.items s = none) :
    getSampleVelocity s =
      (strings.Split (strings.TrimSuffix (filepath.Base s) ".wav".toList) ' ').getLastD [] := by
  unfold getSampleVelocity Regexp.FindStringSubmatch
  rw [h]
  rfl

theorem split_last (sep : Char) (s : Str) :
    (strings.Split s sep).getLastD [] =
      (s.reverse.takeWhile (fun c => c != sep)).reverse := by
  have hdec := List.takeWhile_append_dropWhile (fun c => c != sep) s.reverse
  have hno : sep ∉ (s.reverse.takeWhile (fun c => c != sep)).reverse := by
    intro hm
    have := List.mem_takeWhile_imp (List.mem_reverse.mp hm)
    simp at this
  cases hd : s.reverse.dropWhile (fun c => c != sep) with
  | nil =>
    rw [hd, List.append_nil] at hdec
    rw [hdec, List.reverse_reverse] at hno ⊢
    rw [split_no_sep sep s hno]
    rfl
  | cons x rest =>
    have hx : x = sep := by
      have hne : s.reverse.dropWhile (fun c => c != sep) ≠ [] := by rw [hd]; simp
      have := List.head_dropWhile_not (fun c => c != sep) s.reverse hne
      simp only [hd, List.head_cons] at this
      simpa using this
    subst hx
    have hs : s = rest.reverse ++ x :: (s.reverse.takeWhile (fun c => c != x)).reverse := by
      have := congrArg List.reverse hdec
      rw [List.reverse_reverse, hd, List.reverse_append, List.reverse_cons,
        List.append_assoc] at this
      exact this.symm
    conv_lhs => rw [hs]
    rw [split_append_sep, split_no_sep x _ hno, List.getLastD_concat]

theorem trimSuffix_append (t suf : Str) : strings.TrimSuffix (t ++ suf) suf = t := by
  have h : strings.HasSuffix (t ++ suf) suf = true :=
    (hasSuffix_iff _ _).mpr (List.suffix_append t suf)
  unfold strings.TrimSuffix
  rw [h]
  simp

theorem base_wav (t : Str) :
    filepath.Base (t ++ ".wav".toList) =
      (t.reverse.takeWhile (fun c => c != '/')).reverse ++ ".wav".toList := by
  have hrev : (t ++ ".wav".toList).reverse = 'v' :: 'a' :: 'w' :: '.' :: t.reverse := by simp
  unfold filepath.Base
  rw [hrev]
  have hemp : (t ++ ".wav".toList).isEmpty = false := by
    cases t <;> rfl
  simp [hemp, List.dropWhile_cons, List.takeWhile_cons]

theorem velocity_fallback (t : Str) (h : findFirst velocityRE.items (t ++ ".wav".toList) = none) :
    getSampleVelocity (t ++ ".wav".toList) <:+ t
      ∧ '/' ∉ getSampleVelocity (t ++ ".wav".toList)
      ∧ ∀ t0 c, t = t0 ++ [c] → isAlnum c = false := by
  have hv : getSampleVelocity (t ++ ".wav".toList) =
      (((t.reverse.takeWhile (fun c => c != '/')).reverse).reverse.takeWhile
        (fun c => c != ' ')).reverse := by
    rw [getSampleVelocity_of_no_match _ h, base_wav, trimSuffix_append, split_last]
  have hsuf1 : (t.reverse.takeWhile (fun c => c != '/')).reverse <:+ t :=
    List.reverse_prefix.mp (by rw [List.reverse_reverse]; exact List.takeWhile_prefix _)
  have hsuf2 : getSampleVelocity (t ++ ".wav".toList) <:+
      (t.reverse.takeWhile (fun c => c != '/')).reverse := by
    rw [hv]
    exact List.reverse_prefix.mp (by rw [List.reverse_reverse]; exact List.takeWhile_prefix _)
  refine ⟨hsuf2.trans hsuf1, ?_, ?_⟩
  · intro hm
    have h1 : '/' ∈ (t.reverse.takeWhile (fun c => c != '/')).reverse := hsuf2.subset hm
    have := List.mem_takeWhile_imp (List.mem_reverse.mp h1)
    simp at this
  · intro t0 c ht
    cases hc : isAlnum c with
    | false => rfl
    | true =>
      exfalso
      obtain ⟨r, hr⟩ := velocity_match_at_end c hc
      refine findFirst_ne_none velocityRE.items (t ++ ".wav".toList) (c :: ".wav".toList) r
        ?_ hr h
      exact ⟨t0, by rw [ht]; simp⟩

theorem cleanStack_append (a b : Str) (ha : a ≠ []) :
    filepath.cleanStack (a ++ '/' :: b) =
      (filepath.elements b).foldl (filepath.cleanStep (filepath.isRooted a))
        (filepath.cleanStack a) := by
  unfold filepath.cleanStack
  rw [isRooted_append a _ ha, elements_append_sep, List.foldl_append]

theorem elements_no_sep (b : Str) (h : '/' ∉ b) :
    filepath.elements b = [] ∨ filepath.elements b = [b] := by
  unfold filepath.elements
  rw [split_no_sep '/' b h]
  cases hp : (!(b.isEmpty || b == ".".toList))
  · left
    have hfalse : ¬ ((!(b.isEmpty || b == ".".toList)) = true) := by
      rw [hp]
      exact Bool.false_ne_true
    rw [List.filter_cons, if_neg hfalse]
    rfl
  · right
    rw [List.filter_cons, if_pos hp]
    rfl

theorem cleanStep_ne_all (r : Bool) (st : List Str) (c : Str) (hc : c ≠ "all".toList) :
    filepath.cleanStep r st c ≠ "all".toList :: st := by
  unfold filepath.cleanStep
  split
  · rename_i hdd
    cases st with
    | nil =>
      cases r
      · simp only [Bool.false_eq_true, if_false]
        intro h
        simp only [List.cons.injEq, and_true] at h
        exact hc h
      · simp
    | cons top below =>
      simp only
      split
      · cases r
        · simp only [Bool.false_eq_true, if_false]
          intro h
          simp only [List.cons.injEq, and_true] at h
          exact hc h
        · simp only [if_true]
          intro h
          have := congrArg List.length h
          simp at this
      · intro h
        have := congrArg List.length h
        simp only [List.length_cons] at this
        omega
  · intro h
    simp only [List.cons.injEq, and_true] at h
    exact hc h

theorem export_dir_ne_all (name vel : Str) (hsep : '/' ∉ vel) (hne : vel ≠ "all".toList) :
    filepath.Join ["export".toList, name, vel] ≠
      filepath.Join ["export".toList, name, "all".toList] := by
  intro h
  rw [join_export, join_export] at h
  have ha : "export".toList ++ '/' :: name ≠ [] := by simp
  have hg1 := canon_good _ _ (clean_canon (("export".toList ++ '/' :: name) ++ '/' :: vel))
  have hg2 := canon_good _ _
    (clean_canon (("export".toList ++ '/' :: name) ++ '/' :: "all".toList))
  unfold filepath.Clean at h
  rw [isRooted_append _ _ ha, isRooted_append _ _ ha] at h
  have hst := render_injective _ _ _ hg1 hg2 h
  have h1 := cleanStack_append_name ("export".toList ++ '/' :: name) "all".toList ha (by decide)
  have h2 := cleanStack_append ("export".toList ++ '/' :: name) vel ha
  rw [h1, h2] at hst
  rcases elements_no_sep vel hsep with he | he
  · rw [he] at hst
    have := congrArg List.length hst
    simp at this
  · rw [he] at hst
    exact cleanStep_ne_all _ _ vel hne hst

/-- C14: for every string that ends in `.wav`, `getSampleVelocity` is not `all`: it is
one or two alphanumeric characters (the pattern matched), or else empty or
ending in a non-alphanumeric character (the fallback); so, whatever the preset
name, the velocity directory is never the `all` directory. -/
theorem getSampleVelocity_never_all (s name : Str)
    (h : strings.HasSuffix s ".wav".toList = true) :
    getSampleVelocity s ≠ "all".toList
      ∧ ((1 ≤ (getSampleVelocity s).length ∧ (getSampleVelocity s).length ≤ 2 ∧
            ∀ c ∈ getSampleVelocity s, isAlnum c = true)
          ∨ getSampleVelocity s = []
          ∨ ∃ (init : Str) (c : Char), getSampleVelocity s = init ++ [c] ∧ isAlnum c = false)
      ∧ filepath.Join ["export".toList, name, getSampleVelocity s] ≠
          filepath.Join ["export".toList, name, "all".toList] := by
  obtain ⟨t, ht⟩ := (hasSuffix_iff s _).mp h
  subst ht
  cases hf : findFirst velocityRE.items (t ++ ".wav".toList) with
  | some segs =>
    obtain ⟨u, r, _, hr, hsegs⟩ := findFirst_some _ _ _ hf
    obtain ⟨h1, h2, h3⟩ := velocity_match_sound u r hr
    rw [getSampleVelocity_of_match _ segs hf, hsegs]
    have hne : (r.1.take 1).flatten ≠ "all".toList := by
      intro he
      rw [he] at h2
      revert h2
      decide
    have hsep : '/' ∉ (r.1.take 1).flatten := by
      intro hm
      have := h3 '/' hm
      revert this
      decide
    exact ⟨hne, Or.inl ⟨h1, h2, h3⟩, export_dir_ne_all name _ hsep hne⟩
  | none =>
    obtain ⟨hsuf, hsep, hlast⟩ := velocity_fallback t hf
    have hshape : getSampleVelocity (t ++ ".wav".toList) = []
        ∨ ∃ (init : Str) (c : Char),
          getSampleVelocity (t ++ ".wav".toList) = init ++ [c] ∧ isAlnum c = false := by
      rcases List.eq_nil_or_concat (getSampleVelocity (t ++ ".wav".toList)) with h0 | ⟨init, c, hc⟩
      · exact Or.inl h0
      · rw [List.concat_eq_append] at hc
        right
        refine ⟨init, c, hc, ?_⟩
        obtain ⟨p, hp⟩ := hsuf
        rw [hc] at hp
        exact hlast (p ++ init) c (by rw [← hp]; simp)
    have hne : getSampleVelocity (t ++ ".wav".toList) ≠ "all".toList := by
      intro he
      rcases hshape with h0 | ⟨init, c, hc, hal⟩
      · rw [h0] at he
        cases he
      · rw [hc] at he
        have hcl : c = 'l' := by
          have h1 : init ++ [c] = "al".toList ++ ['l'] := he
          exact (List.append_inj' h1 rfl).2 |> fun h => by simpa using h
        rw [hcl] at hal
        revert hal
        decide
    exact ⟨hne, Or.inr hshape, export_dir_ne_all name _ hsep hne⟩

/-- C14 on the reference of the end-to-end example. -/
theorem getSampleVelocity_never_all_witness :
    getSampleVelocity kickRef ≠ "all".toList
      ∧ filepath.Join ["export".toList, "MyKit".toList, getSampleVelocity kickRef] ≠
          filepath.Join ["export".toList, "MyKit".toList, "all".toList] :=
  have h := getSampleVelocity_never_all kickRef "MyKit".toList (by decide)
  ⟨h.1, h.2.2⟩

/-! ## When `getPresetName` is empty -/

theorem firstDown_ne_none {α : Type} (f : Nat → Option α) (lo j : Nat) (hlo : lo ≤ j)
    (hf : f j ≠ none) : ∀ k, j ≤ k → firstDown f lo k ≠ none := by
  intro k
  induction k with
  | zero =>
    intro hk
    have hj : j = 0 := by omega
    have hl : lo = 0 := by omega
    subst hj
    simp only [firstDown, hl, if_true]
    exact hf
  | succ k ih =>
    intro hk
    simp only [firstDown]
    have hnot : ¬ (k + 1 < lo) := by omega
    rw [if_neg hnot]
    cases hfk : f (k + 1) with
    | some r => simp
    | none =>
      simp only
      apply ih
      rcases Nat.lt_or_ge j (k + 1) with h | h
      · omega
      · have : j = k + 1 := by omega
        rw [this] at hf
        exact absurd hfk hf

theorem preset_match_of_infix (s : Str) (c d : Char) (hc : isPresetNameChar c = true)
    (hd : isAnyNotNL d = true) (hin : (c :: d :: "bwpreset".toList) <:+: s) :
    findFirst presetNameRE.items s ≠ none := by
  obtain ⟨pre, post, hs⟩ := hin
  have hmatch : matchItems presetNameRE.items (c :: d :: ("bwpreset".toList ++ post)) ≠ none := by
    rw [presetNameRE_items]
    simp only [matchItems]
    apply firstDown_ne_none _ 1 1 (le_refl 1)
    · have hb : "bwpreset".toList ++ post =
          'b' :: 'w' :: 'p' :: 'r' :: 'e' :: 's' :: 'e' :: 't' :: post := by simp
      rw [hb]
      simp [matchItems, hd]
    · unfold maxRun
      simp only
      rw [List.takeWhile_cons_of_pos hc]
      simp
  cases hm : matchItems presetNameRE.items (c :: d :: ("bwpreset".toList ++ post)) with
  | none => exact absurd hm hmatch
  | some r =>
    refine findFirst_ne_none presetNameRE.items s _ r ⟨pre, ?_⟩ hm
    rw [← hs]
    simp

theorem preset_no_match_of_no_infix (s : Str)
    (hno : ∀ c d : Char, isPresetNameChar c = true → isAnyNotNL d = true →
      ¬ (c :: d :: "bwpreset".toList) <:+: s) :
    findFirst presetNameRE.items s = none := by
  apply findFirst_none
  intro t ht
  cases hm : matchItems presetNameRE.items t with
  | none => rfl
  | some r =>
    exfalso
    obtain ⟨g, x, hg, hcls, hx, _, ht2⟩ := preset_match_sound t r hm
    obtain ⟨pre, hpre⟩ := ht
    refine hno (g.getLast hg) x (hcls _ (List.getLast_mem hg)) hx ⟨pre ++ g.dropLast, r.2, ?_⟩
    rw [← hpre, ht2]
    conv_rhs => rw [← List.dropLast_append_getLast hg]
    simp

/-- C6 (amended): `getPresetName` returns the empty string exactly when the pattern
`([\w -]+).bwpreset` has no match anywhere in the path and the file name is
exactly `.bwpreset`; the pattern has no match exactly when nowhere in the path a
character of `[\w -]` is followed by a character other than the line feed and
then `bwpreset`.  So the result is non-empty for every path whose file name is
not `.bwpreset`, and also for a file named `.bwpreset` whenever the pattern
matches in the directory part. -/
theorem getPresetName_empty_iff (s : Str) :
    (getPresetName s = [] ↔
        presetNameRE.FindStringSubmatch s = none ∧ filepath.Base s = ".bwpreset".toList)
      ∧ (presetNameRE.FindStringSubmatch s = none ↔
          ∀ c d : Char, isPresetNameChar c = true → isAnyNotNL d = true →
            ¬ (c :: d :: "bwpreset".toList) <:+: s)
      ∧ (filepath.Base s ≠ ".bwpreset".toList → getPresetName s ≠ [])
      ∧ (presetNameRE.FindStringSubmatch s ≠ none → getPresetName s ≠ []) := by
  have hsub : presetNameRE.FindStringSubmatch s = none ↔ findFirst presetNameRE.items s = none := by
    unfold Regexp.FindStringSubmatch
    exact Option.map_eq_none'
  have hiff : getPresetName s = [] ↔
      presetNameRE.FindStringSubmatch s = none ∧ filepath.Base s = ".bwpreset".toList := by
    rw [hsub]
    constructor
    · intro h0
      cases hf : findFirst presetNameRE.items s with
      | none =>
        rw [getPresetName_of_no_match s hf] at h0
        rcases trimSuffix_eq_nil _ _ h0 with h1 | h1
        · exact absurd h1 (base_ne_nil s)
        · exact ⟨rfl, h1⟩
      | some segs =>
        exfalso
        obtain ⟨t, r, _, hr, hsegs⟩ := findFirst_some _ _ _ hf
        obtain ⟨g, x, hg, _, _, hgrp, _⟩ := preset_match_sound t r hr
        rw [getPresetName_of_match s segs hf, hsegs, hgrp] at h0
        exact hg h0
    · intro ⟨hf, hb⟩
      rw [getPresetName_of_no_match s hf, hb]
      decide
  refine ⟨hiff, ?_, ?_, ?_⟩
  · rw [hsub]
    constructor
    · intro hf c d hc hd hin
      exact preset_match_of_infix s c d hc hd hin hf
    · exact preset_no_match_of_no_infix s
  · intro hb h0
    exact hb (hiff.mp h0).2
  · intro hm h0
    exact hm (hiff.mp h0).1

/-- C6 (amended) on two paths: the preset file `-.bwpreset` has a non-empty name, and
so has the file `.bwpreset` inside a directory `old.bwpreset`, where the pattern
matches in the directory part (the result is `old`). -/
theorem getPresetName_empty_iff_witness :
    getPresetName (examplePresetDir ++ "/-.bwpreset".toList) ≠ []
      ∧ filepath.Base "/Users/u/old.bwpreset/.bwpreset".toList = ".bwpreset".toList
      ∧ getPresetName "/Users/u/old.bwpreset/.bwpreset".toList = "old".toList
      ∧ getPresetName "/Users/u/old.bwpreset/.bwpreset".toList ≠ [] :=
  ⟨(getPresetName_empty_iff (examplePresetDir ++ "/-.bwpreset".toList)).2.2.1 (by decide),
    by decide, by decide,
    (getPresetName_empty_iff "/Users/u/old.bwpreset/.bwpreset".toList).2.2.2
      (fun h => (((getPresetName_empty_iff "/Users/u/old.bwpreset/.bwpreset".toList).2.1.mp h)
        'd' '.' (by decide) (by decide)) ⟨"/Users/u/ol".toList, "/.bwpreset".toList, by decide⟩)⟩

end BitwigExporter
